import Mathlib

/-!
k3s-manifests-updater: reconciliation of a manifests directory against a git revision.

A shallow embedding of `filesystem/syncer.go` and `api/v1/update.go`.

* Go `string` and `[]byte` values are Lean `String`s (text contents).
* Go `map[string]*manifestData` is an association list with unique keys; a `range`
  loop visits the entries in list order, and every statement about the loops is
  proved for an arbitrary list, hence for every iteration order.
* The git client, the directory walk and the file operations are the environment:
  a `Remote` value gives the result of each git call, a list of `WalkCall`s gives
  the calls `filepath.Walk` makes to its callback, a `FileSystem` maps the absolute
  path of each regular file to its contents, and a fault pattern says which of the
  attempted writes and removes fail.
* `fmt.Println` output is left out.
-/

namespace K3sUpdater

/-! ## crypto.SHA1 (FIPS 180-4), on 32-bit words kept as `Nat` modulo `2 ^ 32` -/

/-- A `[20]byte` value. -/
abbrev Sha1Hash := List Nat

/-- The zero value of `[20]byte`. -/
def zeroHash : Sha1Hash := List.replicate 20 0

/-- Rotate a 32-bit word left by `n` bits. -/
def rotl32 (x n : Nat) : Nat := ((x <<< n) ||| (x >>> (32 - n))) % 2 ^ 32

/-- Big-endian bytes of `n`, `width` of them. -/
def beBytes (width n : Nat) : List Nat :=
  (List.range width).map fun i => (n >>> (8 * (width - 1 - i))) % 256

/-- Message padding: a one bit, zeros up to 56 modulo 64, the bit length on 8 bytes. -/
def sha1Pad (msg : List Nat) : List Nat :=
  msg ++ [0x80] ++ List.replicate ((119 - msg.length % 64) % 64) 0 ++ beBytes 8 (8 * msg.length)

/-- Big-endian word of a byte list. -/
def beWord (bs : List Nat) : Nat :=
  bs.foldl (fun acc b => acc * 256 + b) 0

/-- The 80-word message schedule of one 64-byte block. -/
def sha1Schedule (block : List Nat) : List Nat :=
  let w16 := (List.range 16).map fun i => beWord ((block.drop (4 * i)).take 4)
  (List.range 64).foldl
    (fun w _ =>
      let i := w.length
      w ++ [rotl32 (w.getD (i - 3) 0 ^^^ w.getD (i - 8) 0 ^^^ w.getD (i - 14) 0 ^^^ w.getD (i - 16) 0) 1])
    w16

/-- The five chaining words. -/
structure Sha1State where
  a : Nat
  b : Nat
  c : Nat
  d : Nat
  e : Nat
deriving DecidableEq

/-- One of the 80 rounds. -/
def sha1Round (w : List Nat) (st : Sha1State) (i : Nat) : Sha1State :=
  let fk : Nat × Nat :=
    if i < 20 then ((st.b &&& st.c) ||| ((st.b ^^^ 0xFFFFFFFF) &&& st.d), 0x5A827999)
    else if i < 40 then (st.b ^^^ st.c ^^^ st.d, 0x6ED9EBA1)
    else if i < 60 then ((st.b &&& st.c) ||| (st.b &&& st.d) ||| (st.c &&& st.d), 0x8F1BBCDC)
    else (st.b ^^^ st.c ^^^ st.d, 0xCA62C1D6)
  { a := (rotl32 st.a 5 + fk.1 + st.e + fk.2 + w.getD i 0) % 2 ^ 32
    b := st.a
    c := rotl32 st.b 30
    d := st.c
    e := st.d }

/-- Compression of one block into the chaining state. -/
def sha1Block (h : Sha1State) (block : List Nat) : Sha1State :=
  let w := sha1Schedule block
  let r := (List.range 80).foldl (sha1Round w) h
  { a := (h.a + r.a) % 2 ^ 32
    b := (h.b + r.b) % 2 ^ 32
    c := (h.c + r.c) % 2 ^ 32
    d := (h.d + r.d) % 2 ^ 32
    e := (h.e + r.e) % 2 ^ 32 }

/-- Initial chaining state. -/
def sha1Init : Sha1State :=
  { a := 0x67452301, b := 0xEFCDAB89, c := 0x98BADCFE, d := 0x10325476, e := 0xC3D2E1F0 }

/-- SHA-1 digest of a byte list. -/
def sha1Bytes (msg : List Nat) : Sha1Hash :=
  let padded := sha1Pad msg
  let h := (List.range (padded.length / 64)).foldl
    (fun h i => sha1Block h ((padded.drop (64 * i)).take 64)) sha1Init
  beBytes 4 h.a ++ beBytes 4 h.b ++ beBytes 4 h.c ++ beBytes 4 h.d ++ beBytes 4 h.e

/-- The bytes of a Go string (UTF-8). -/
def goBytes (s : String) : List Nat :=
  (s.data.flatMap String.utf8EncodeChar).map UInt8.toNat

/-- The digest `crypto.SHA1` gives for the bytes of a string. -/
def sha1Sum (s : String) : Sha1Hash := sha1Bytes (goBytes s)

/-! ## strings -/

/-- Go `strings.HasPrefix`. -/
def HasPrefix (s pre : String) : Bool := pre.data.isPrefixOf s.data

/-- Go `strings.HasSuffix`. -/
def HasSuffix (s suffix : String) : Bool := suffix.data.isSuffixOf s.data

/-- Go `strings.TrimPrefix`. -/
def TrimPrefix (s pre : String) : String :=
  if HasPrefix s pre then String.mk (s.data.drop pre.data.length) else s

/-! ## syncer.go: data -/

/-- The package variable `manifestIgnoreList`. -/
def manifestIgnoreList : List String :=
  [ "ccm.yaml",
    "coredns.yaml",
    "local-storage.yaml",
    "metrics-server/",
    "rolebindings.yaml",
    "traefik.yaml",
    "metrics-server" ]

/-- The constant `manifestsDir`. -/
def manifestsDir : String := "/var/lib/rancher/k3s/server/manifests/"

/-- The package variable `manifestValidSuffixes`. -/
def manifestValidSuffixes : List String :=
  [ ".yaml",
    ".yml",
    ".json" ]

/-- The struct `manifestData`; `Contents` is the empty (nil) slice when not set. -/
structure manifestData where
  Path : String
  Size : Int
  Hash : Sha1Hash
  Contents : String
deriving DecidableEq

/-- The struct `gitSyncer`. -/
structure gitSyncer where
  gitRepoURL : String
  fsManifestsDir : String
  ignoreList : List String
  validSuffixList : List String
deriving DecidableEq

/-- The constructor `NewGitSyncer`. -/
def NewGitSyncer (gitRepoURL : String) : gitSyncer :=
  { gitRepoURL := gitRepoURL
    fsManifestsDir := manifestsDir
    ignoreList := manifestIgnoreList
    validSuffixList := manifestValidSuffixes }

/-- A Go `map[string]*manifestData`: entries with pairwise distinct keys. -/
abbrev ManifestMap := List (String × manifestData)

/-- The keys of a map. -/
def mapKeys (m : ManifestMap) : List String := m.map Prod.fst

/-- Map index `m[k]` with the comma-ok result. -/
def mapLookup : ManifestMap → String → Option manifestData
  | [], _ => none
  | (k, v) :: rest, key => if k = key then some v else mapLookup rest key

/-- Map assignment `m[k] = v`: replaces the entry of the key, or adds one. -/
def mapInsert : ManifestMap → String → manifestData → ManifestMap
  | [], key, val => [(key, val)]
  | (k, v) :: rest, key, val =>
    if k = key then (key, val) :: rest else (k, v) :: mapInsert rest key val

/-- The function `sha1FromFileContents`. -/
def sha1FromFileContents (contents : String) : Sha1Hash := sha1Sum contents

/-! ## the remote repository -/

deriving instance DecidableEq for Except

/-- An `object.File` of the head commit: name, size, and what `Contents()` returns. -/
structure RemoteFile where
  Name : String
  Size : Int
  Contents : Except String String

/-- The results of the four git calls of `manifestsToDeploy`: the error of `git.Clone`,
of `Head` and of `CommitObject` (`none` when the call succeeds), and the result of
`commit.Files()`, the files in iteration order. -/
structure Remote where
  clone : Option String
  head : Option String
  commitObject : Option String
  files : Except String (List RemoteFile)

/-- The first loop of both callbacks: `true` when some entry of the ignore list is a
string prefix of the name, in which case the callback returns. -/
def ignoreLoop (name : String) : List String → Bool
  | [] => false
  | pre :: rest => if HasPrefix name pre then true else ignoreLoop name rest

/-- The suffix loop of the `ForEach` callback: `true` when the callback returns from
inside the loop. The body leaves the loop with `break` when the suffix matches and
returns otherwise, so it never reaches a second entry. -/
def suffixLoop (name : String) : List String → Bool
  | [] => false
  | suffix :: _ => if HasSuffix name suffix then false else true

/-- The callback passed to `fileIter.ForEach` in `manifestsToDeploy`; it always returns nil. -/
def forEachFn (s : gitSyncer) (manifests : ManifestMap) (f : RemoteFile) : ManifestMap :=
  if ignoreLoop f.Name s.ignoreList then manifests
  else if suffixLoop f.Name s.validSuffixList then manifests
  else
    match f.Contents with
    | .error _ => manifests
    | .ok fileContents =>
      mapInsert manifests f.Name
        { Path := f.Name
          Size := f.Size
          Hash := sha1FromFileContents fileContents
          Contents := fileContents }

/-- The method `manifestsToDeploy`. -/
def manifestsToDeploy (s : gitSyncer) (remote : Remote) : Except String ManifestMap :=
  match remote.clone with
  | some err => .error ("clone failed: " ++ err)
  | none =>
    match remote.head with
    | some err => .error ("head failed: " ++ err)
    | none =>
      match remote.commitObject with
      | some err => .error ("fetching commit by hash failed: " ++ err)
      | none =>
        match remote.files with
        | .error err => .error ("extracting file iterator from commit failed: " ++ err)
        | .ok files => .ok (files.foldl (forEachFn s) [])

/-! ## the local filesystem -/

/-- The regular files of the machine: absolute path and contents. -/
abbrev FileSystem := List (String × String)

/-- Contents of the file at a path, `none` when there is no such file. -/
def fsRead : FileSystem → String → Option String
  | [], _ => none
  | (p, c) :: rest, path => if p = path then some c else fsRead rest path

/-- The filesystem after `os.Remove` of a path succeeded. -/
def fsRemove (fs : FileSystem) (path : String) : FileSystem :=
  fs.filter fun e => decide (e.1 ≠ path)

/-- The filesystem after `os.WriteFile` of a path succeeded. -/
def fsWrite (fs : FileSystem) (path contents : String) : FileSystem :=
  (path, contents) :: fsRemove fs path

/-- `filepath.Join` of a directory that ends in the separator, as `manifestsDir` does,
and a clean relative path. -/
def filepathJoin (dir path : String) : String := dir ++ path

/-- The function `sha1FromFilePath`: the zero hash when the file cannot be opened. -/
def sha1FromFilePath (fs : FileSystem) (path : String) : Sha1Hash :=
  match fsRead fs path with
  | none => zeroHash
  | some contents => sha1Sum contents

/-- An attempted file operation of a pass: a call of `copyManifest` or of
`removeManifest`, with the relative path it is given. -/
inductive FsOp where
  | copy (path contents : String)
  | remove (path : String)
deriving DecidableEq

/-- Which attempts fail: the decision for the attempt with a given position in the
pass and a given operation. -/
abbrev Faults := Nat → FsOp → Bool

/-- The pattern in which every write and every remove succeeds. -/
def noFaults : Faults := fun _ _ => false

/-- The filesystem and the operations attempted so far, oldest first. -/
structure SyncState where
  fs : FileSystem
  ops : List FsOp
deriving DecidableEq

/-- The method `copyManifest`: the new state and the returned error. A failed attempt
leaves the files as they were. -/
def copyManifest (s : gitSyncer) (faults : Faults) (st : SyncState) (path contents : String) :
    SyncState × Option String :=
  let localPath := filepathJoin s.fsManifestsDir path
  if faults st.ops.length (.copy path contents) then
    ({ fs := st.fs, ops := st.ops ++ [.copy path contents] }, some ("open " ++ localPath))
  else
    ({ fs := fsWrite st.fs localPath contents, ops := st.ops ++ [.copy path contents] }, none)

/-- The method `removeManifest`. -/
def removeManifest (s : gitSyncer) (faults : Faults) (st : SyncState) (path : String) :
    SyncState × Option String :=
  let localPath := filepathJoin s.fsManifestsDir path
  if faults st.ops.length (.remove path) then
    ({ fs := st.fs, ops := st.ops ++ [.remove path] }, some ("remove " ++ localPath))
  else
    ({ fs := fsRemove st.fs localPath, ops := st.ops ++ [.remove path] }, none)

/-! ## the directory walk -/

/-- What the callback reads of an `os.FileInfo`. -/
structure FileInfo where
  Size : Int
  IsDir : Bool
deriving DecidableEq

/-- One call of `filepath.Walk` to its callback. `info` is `none` for the nil interface,
which `Walk` passes together with an error when `Lstat` of the entry fails. -/
structure WalkCall where
  path : String
  info : Option FileInfo
  err : Option String
deriving DecidableEq

/-- Outcome of running Go code: it returns a value or it panics. -/
inductive Run (α : Type) where
  | done (a : α)
  | panicked (msg : String)
deriving DecidableEq

/-- The message of the panic of a nil dereference. -/
def nilDereference : String :=
  "runtime error: invalid memory address or nil pointer dereference"

/-- The callback passed to `filepath.Walk` in `Sync`. It calls `info.IsDir()` first,
a nil dereference when `info` is nil; otherwise it returns nil. -/
def walkFn (s : gitSyncer) (fs : FileSystem) (deployed : ManifestMap) (c : WalkCall) :
    Run ManifestMap :=
  match c.info with
  | none => .panicked nilDereference
  | some info =>
    if info.IsDir then .done deployed
    else
      let trimedPath := TrimPrefix c.path s.fsManifestsDir
      if ignoreLoop trimedPath s.ignoreList then .done deployed
      else if trimedPath = "" then .done deployed
      else
        .done (mapInsert deployed trimedPath
          { Path := trimedPath
            Size := info.Size
            Hash := sha1FromFilePath fs c.path
            Contents := "" })

/-- The walk of `Sync` over the calls `filepath.Walk` makes: the callback never
returns an error, so the walk goes through all of them unless the callback panics. -/
def walkDeployed (s : gitSyncer) (fs : FileSystem) : ManifestMap → List WalkCall → Run ManifestMap
  | deployed, [] => .done deployed
  | deployed, c :: rest =>
    match walkFn s fs deployed c with
    | .panicked msg => .panicked msg
    | .done deployed1 => walkDeployed s fs deployed1 rest

/-- The calls `filepath.Walk` makes on a readable tree: the root directory, then each
regular file below it. Calls for the directories in between are left out; the
callback returns at once on them. -/
def filepathWalk (fs : FileSystem) (root : String) : List WalkCall :=
  { path := root, info := some { Size := 4096, IsDir := true }, err := none } ::
    (fs.filter fun e => HasPrefix e.1 root).map fun e =>
      { path := e.1, info := some { Size := (goBytes e.2).length, IsDir := false }, err := none }

/-! ## Sync -/

/-- Body of the first loop of `Sync`, for one entry of `toDeploy`. -/
def deployStep (s : gitSyncer) (faults : Faults) (deployed : ManifestMap) (st : SyncState)
    (entry : String × manifestData) : SyncState :=
  match mapLookup deployed entry.1 with
  | some deployedManifest =>
    if deployedManifest.Hash = entry.2.Hash then st
    else (copyManifest s faults st entry.1 entry.2.Contents).1
  | none => (copyManifest s faults st entry.1 entry.2.Contents).1

/-- Body of the second loop of `Sync`, for one entry of `deployed`. -/
def removeStep (s : gitSyncer) (faults : Faults) (toDeploy : ManifestMap) (st : SyncState)
    (entry : String × manifestData) : SyncState :=
  match mapLookup toDeploy entry.1 with
  | some _ => st
  | none => (removeManifest s faults st entry.1).1

/-- The two loops of `Sync`, from a given state. -/
def syncLoops (s : gitSyncer) (faults : Faults) (toDeploy deployed : ManifestMap)
    (st : SyncState) : SyncState :=
  deployed.foldl (removeStep s faults toDeploy) (toDeploy.foldl (deployStep s faults deployed) st)

/-- What a call of `Sync` leaves: the returned error, the files, the attempted operations. -/
structure SyncResult where
  err : Option String
  fs : FileSystem
  ops : List FsOp
deriving DecidableEq

/-- The method `Sync`. -/
def Sync (s : gitSyncer) (remote : Remote) (calls : List WalkCall) (faults : Faults)
    (fs : FileSystem) : Run SyncResult :=
  match manifestsToDeploy s remote with
  | .error err =>
    .done { err := some ("fetching manifests to deploy failed: " ++ err), fs := fs, ops := [] }
  | .ok toDeploy =>
    match walkDeployed s fs [] calls with
    | .panicked msg => .panicked msg
    | .done deployed =>
      let st := syncLoops s faults toDeploy deployed { fs := fs, ops := [] }
      .done { err := none, fs := st.fs, ops := st.ops }

/-! ## config.go and update.go -/

/-- The struct `config.Config`. -/
structure Config where
  Port : Nat
  GitRepoURL : String
deriving DecidableEq

/-- The constant `http.StatusOK`. -/
def StatusOK : Nat := 200

/-- What `HandleUpdate` leaves: the status written to the response, the error it
printed, and the result of the pass. -/
structure UpdateResult where
  status : Nat
  printed : Option String
  pass : SyncResult
deriving DecidableEq

/-- The function `HandleUpdate`. -/
def HandleUpdate (conf : Config) (remote : Remote) (calls : List WalkCall) (faults : Faults)
    (fs : FileSystem) : Run UpdateResult :=
  let s := NewGitSyncer conf.GitRepoURL
  match Sync s remote calls faults fs with
  | .panicked msg => .panicked msg
  | .done r => .done { status := StatusOK, printed := r.err, pass := r }

/-! ## specification vocabulary -/

/-- The operation the first loop attempts for an entry of `toDeploy`, if any. -/
def deployOp (deployed : ManifestMap) (entry : String × manifestData) : Option FsOp :=
  match mapLookup deployed entry.1 with
  | some deployedManifest =>
    if deployedManifest.Hash = entry.2.Hash then none
    else some (.copy entry.1 entry.2.Contents)
  | none => some (.copy entry.1 entry.2.Contents)

/-- The operation the second loop attempts for an entry of `deployed`, if any. -/
def removeOp (toDeploy : ManifestMap) (entry : String × manifestData) : Option FsOp :=
  match mapLookup toDeploy entry.1 with
  | some _ => none
  | none => some (.remove entry.1)

/-- The operations the two loops of `Sync` attempt, in order. -/
def passOps (s : gitSyncer) (faults : Faults) (toDeploy deployed : ManifestMap)
    (fs : FileSystem) : List FsOp :=
  (syncLoops s faults toDeploy deployed { fs := fs, ops := [] }).ops

/-- A deployed map that reflects the files under the managed directory: each entry
stands for an existing file, carries the hash of that file, and has a key that is not
empty and has no ignore entry as a prefix; and every such file has an entry. -/
def DeployedOf (s : gitSyncer) (fs : FileSystem) (deployed : ManifestMap) : Prop :=
  (∀ e ∈ deployed,
      e.2.Hash = sha1FromFilePath fs (filepathJoin s.fsManifestsDir e.1) ∧
      fsRead fs (filepathJoin s.fsManifestsDir e.1) ≠ none ∧
      ignoreLoop e.1 s.ignoreList = false ∧ e.1 ≠ "") ∧
    (∀ k, fsRead fs (filepathJoin s.fsManifestsDir k) ≠ none →
      ignoreLoop k s.ignoreList = false → k ≠ "" → k ∈ mapKeys deployed)

/-- Some entry of the list is a string prefix of the path. -/
def startsWithAny (pres : List String) (p : String) : Prop :=
  ∃ pre, pre ∈ pres ∧ HasPrefix p pre = true

/-- Some entry of the list is a string suffix of the path. -/
def endsWithAny (suffixes : List String) (p : String) : Prop :=
  ∃ suffix, suffix ∈ suffixes ∧ HasSuffix p suffix = true

/-! ## inputs used in the examples -/

/-- A remote whose four git calls succeed, with the given files. -/
def remoteOf (files : List RemoteFile) : Remote :=
  { clone := none, head := none, commitObject := none, files := .ok files }

/-- A remote file whose contents can be read. -/
def remoteFile (name contents : String) : RemoteFile :=
  { Name := name, Size := (goBytes contents).length, Contents := .ok contents }

/-- The remote of the end-to-end scenario. -/
def scenarioRemote : Remote :=
  remoteOf [remoteFile "a.yaml" "x", remoteFile "b.json" "y", remoteFile "ccm.yaml" "z"]

/-- The managed directory of the end-to-end scenario. -/
def scenarioFs : FileSystem :=
  [(manifestsDir ++ "a.yaml", "x"), (manifestsDir ++ "c.yml", "old")]

/-- A remote whose clone fails. -/
def unreachableRemote : Remote :=
  { clone := some "repository not found", head := none, commitObject := none, files := .ok [] }

/-- A desired record for given contents and a recorded size. -/
def recordOf (path contents : String) (size : Int) : manifestData :=
  { Path := path, Size := size, Hash := sha1FromFileContents contents, Contents := contents }

/-- A remote with a changed file and a new file. -/
def changedRemote : Remote :=
  remoteOf [remoteFile "a.yaml" "x", remoteFile "d.yaml" "new"]

/-- A managed directory with a stale file, a file the remote lacks and a bundled file. -/
def staleFs : FileSystem :=
  [ (manifestsDir ++ "a.yaml", "old"),
    (manifestsDir ++ "c.yml", "old"),
    (manifestsDir ++ "ccm.yaml", "bundled") ]

/-- The desired map of `changedRemote`. -/
def changedDesired : ManifestMap :=
  [("a.yaml", recordOf "a.yaml" "x" 1), ("d.yaml", recordOf "d.yaml" "new" 3)]

/-- A desired map: `a.yaml` and `b.yaml`. -/
def sampleDesired : ManifestMap :=
  [("a.yaml", recordOf "a.yaml" "x" 1), ("b.yaml", recordOf "b.yaml" "y" 1)]

/-- The files the deployed map `sampleDeployed` stands for. -/
def sampleFs : FileSystem :=
  [ (manifestsDir ++ "a.yaml", "x"),
    (manifestsDir ++ "b.yaml", "z"),
    (manifestsDir ++ "c.yaml", "old") ]

/-- A deployed map: `a.yaml` with the same contents and another size, `b.yaml` with
other contents of the same size, and `c.yaml`. -/
def sampleDeployed : ManifestMap :=
  [ ("a.yaml", recordOf "a.yaml" "x" 7),
    ("b.yaml", recordOf "b.yaml" "z" 1),
    ("c.yaml", recordOf "c.yaml" "old" 3) ]

/-! # Theorems -/

set_option maxRecDepth 100000

/-! ## the digest -/

theorem sha1Sum_abc :
    sha1Sum "abc"
      = [0xa9, 0x99, 0x3e, 0x36, 0x47, 0x06, 0x81, 0x6a, 0xba, 0x3e,
         0x25, 0x71, 0x78, 0x50, 0xc2, 0x6c, 0x9c, 0xd0, 0xd8, 0x9d] := by
  decide

theorem sha1Sum_empty :
    sha1Sum ""
      = [0xda, 0x39, 0xa3, 0xee, 0x5e, 0x6b, 0x4b, 0x0d, 0x32, 0x55,
         0xbf, 0xef, 0x95, 0x60, 0x18, 0x90, 0xaf, 0xd8, 0x07, 0x09] := by
  decide

/-! ## maps -/

theorem mapLookup_mapInsert_self (m : ManifestMap) (k : String) (v : manifestData) :
    mapLookup (mapInsert m k v) k = some v := by
  induction m with
  | nil => simp [mapInsert, mapLookup]
  | cons e rest ih =>
    obtain ⟨k1, v1⟩ := e
    by_cases h : k1 = k
    · simp [mapInsert, mapLookup, h]
    · simp [mapInsert, mapLookup, h, ih]

theorem mapLookup_mapInsert_ne (m : ManifestMap) (k key : String) (v : manifestData)
    (hne : k ≠ key) : mapLookup (mapInsert m k v) key = mapLookup m key := by
  induction m with
  | nil => simp [mapInsert, mapLookup, hne]
  | cons e rest ih =>
    obtain ⟨k1, v1⟩ := e
    by_cases h : k1 = k
    · subst h
      simp [mapInsert, mapLookup, hne]
    · by_cases h2 : k1 = key
      · subst h2
        simp [mapInsert, mapLookup, h]
      · simp [mapInsert, mapLookup, h, h2, ih]

theorem mapKeys_mapInsert_mem (m : ManifestMap) (k key : String) (v : manifestData) :
    key ∈ mapKeys (mapInsert m k v) ↔ key = k ∨ key ∈ mapKeys m := by
  induction m with
  | nil => simp [mapInsert, mapKeys]
  | cons e rest ih =>
    obtain ⟨k1, v1⟩ := e
    by_cases h : k1 = k
    · subst h
      simp [mapInsert, mapKeys]
    · simp only [mapKeys] at ih
      simp [mapInsert, mapKeys, h, ih]
      tauto

theorem mapKeys_mapInsert_nodup (m : ManifestMap) (k : String) (v : manifestData)
    (hm : (mapKeys m).Nodup) : (mapKeys (mapInsert m k v)).Nodup := by
  induction m with
  | nil => simp [mapInsert, mapKeys]
  | cons e rest ih =>
    obtain ⟨k1, v1⟩ := e
    have hm2 : k1 ∉ mapKeys rest ∧ (mapKeys rest).Nodup := by
      simpa [mapKeys] using hm
    by_cases h : k1 = k
    · subst h
      simpa [mapInsert, mapKeys] using hm
    · have hmem := mapKeys_mapInsert_mem rest k k1 v
      have ih2 := ih hm2.2
      simp only [mapInsert, h, if_false, mapKeys, List.map_cons, List.nodup_cons]
      refine ⟨?_, ih2⟩
      intro hc
      rcases hmem.mp hc with h3 | h3
      · exact h h3
      · exact hm2.1 h3

theorem mem_of_mapLookup (m : ManifestMap) (k : String) (v : manifestData)
    (h : mapLookup m k = some v) : (k, v) ∈ m := by
  induction m with
  | nil => simp [mapLookup] at h
  | cons e rest ih =>
    obtain ⟨k1, v1⟩ := e
    by_cases h1 : k1 = k
    · subst h1
      simp [mapLookup] at h
      simp [h]
    · simp [mapLookup, h1] at h
      exact List.mem_cons_of_mem _ (ih h)

theorem mapLookup_eq_none_iff (m : ManifestMap) (k : String) :
    mapLookup m k = none ↔ k ∉ mapKeys m := by
  induction m with
  | nil => simp [mapLookup, mapKeys]
  | cons e rest ih =>
    obtain ⟨k1, v1⟩ := e
    by_cases h1 : k1 = k
    · subst h1
      simp [mapLookup, mapKeys]
    · simp only [mapKeys] at ih
      simp only [mapLookup, h1, if_false, ih, mapKeys, List.map_cons, List.mem_cons, not_or]
      constructor
      · intro h
        exact ⟨fun hc => h1 hc.symm, h⟩
      · intro h
        exact h.2

theorem mapLookup_of_mem (m : ManifestMap) (k : String) (v : manifestData)
    (hm : (mapKeys m).Nodup) (h : (k, v) ∈ m) : mapLookup m k = some v := by
  induction m with
  | nil => simp at h
  | cons e rest ih =>
    obtain ⟨k1, v1⟩ := e
    have hm2 : k1 ∉ mapKeys rest ∧ (mapKeys rest).Nodup := by
      simpa [mapKeys] using hm
    rcases List.mem_cons.mp h with h1 | h1
    · cases h1
      simp [mapLookup]
    · have hk : k ∈ mapKeys rest := List.mem_map_of_mem Prod.fst h1
      have hne : k1 ≠ k := fun hc => hm2.1 (hc ▸ hk)
      simp [mapLookup, hne, ih hm2.2 h1]

/-! ## the operations a pass attempts -/

theorem copyManifest_ops (s : gitSyncer) (faults : Faults) (st : SyncState) (p c : String) :
    (copyManifest s faults st p c).1.ops = st.ops ++ [FsOp.copy p c] := by
  unfold copyManifest
  split <;> rfl

theorem removeManifest_ops (s : gitSyncer) (faults : Faults) (st : SyncState) (p : String) :
    (removeManifest s faults st p).1.ops = st.ops ++ [FsOp.remove p] := by
  unfold removeManifest
  split <;> rfl

theorem deployStep_ops (s : gitSyncer) (faults : Faults) (deployed : ManifestMap)
    (st : SyncState) (entry : String × manifestData) :
    (deployStep s faults deployed st entry).ops = st.ops ++ (deployOp deployed entry).toList := by
  unfold deployStep deployOp
  split
  · split
    · simp
    · simp [copyManifest_ops]
  · simp [copyManifest_ops]

theorem removeStep_ops (s : gitSyncer) (faults : Faults) (toDeploy : ManifestMap)
    (st : SyncState) (entry : String × manifestData) :
    (removeStep s faults toDeploy st entry).ops = st.ops ++ (removeOp toDeploy entry).toList := by
  unfold removeStep removeOp
  split
  · simp
  · simp [removeManifest_ops]

theorem foldl_deployStep_ops (s : gitSyncer) (faults : Faults) (deployed : ManifestMap)
    (entries : ManifestMap) (st : SyncState) :
    (entries.foldl (deployStep s faults deployed) st).ops
      = st.ops ++ entries.filterMap (deployOp deployed) := by
  induction entries generalizing st with
  | nil => simp
  | cons e rest ih =>
    rw [List.foldl_cons, ih, deployStep_ops, List.filterMap_cons]
    cases deployOp deployed e <;> simp

theorem foldl_removeStep_ops (s : gitSyncer) (faults : Faults) (toDeploy : ManifestMap)
    (entries : ManifestMap) (st : SyncState) :
    (entries.foldl (removeStep s faults toDeploy) st).ops
      = st.ops ++ entries.filterMap (removeOp toDeploy) := by
  induction entries generalizing st with
  | nil => simp
  | cons e rest ih =>
    rw [List.foldl_cons, ih, removeStep_ops, List.filterMap_cons]
    cases removeOp toDeploy e <;> simp

theorem syncLoops_ops (s : gitSyncer) (faults : Faults) (toDeploy deployed : ManifestMap)
    (st : SyncState) :
    (syncLoops s faults toDeploy deployed st).ops
      = st.ops ++ toDeploy.filterMap (deployOp deployed)
          ++ deployed.filterMap (removeOp toDeploy) := by
  unfold syncLoops
  rw [foldl_removeStep_ops, foldl_deployStep_ops]

theorem deployOp_eq_copy (deployed : ManifestMap) (entry : String × manifestData)
    (p c : String) :
    deployOp deployed entry = some (FsOp.copy p c) ↔
      entry.1 = p ∧ entry.2.Contents = c ∧
        (mapLookup deployed p = none ∨
          ∃ d, mapLookup deployed p = some d ∧ d.Hash ≠ entry.2.Hash) := by
  unfold deployOp
  constructor
  · intro h
    split at h
    · rename_i d hd
      split at h
      · simp at h
      · rename_i hne
        simp only [Option.some.injEq, FsOp.copy.injEq] at h
        obtain ⟨h1, h2⟩ := h
        subst h1
        exact ⟨rfl, h2, Or.inr ⟨d, hd, hne⟩⟩
    · rename_i hd
      simp only [Option.some.injEq, FsOp.copy.injEq] at h
      obtain ⟨h1, h2⟩ := h
      subst h1
      exact ⟨rfl, h2, Or.inl hd⟩
  · rintro ⟨h1, h2, h3⟩
    subst h1
    subst h2
    rcases h3 with h3 | ⟨d, hd, hne⟩
    · simp [h3]
    · simp [hd, hne]

theorem deployOp_ne_remove (deployed : ManifestMap) (entry : String × manifestData)
    (p : String) : deployOp deployed entry ≠ some (FsOp.remove p) := by
  unfold deployOp
  split
  · split <;> simp
  · simp

theorem removeOp_eq_remove (toDeploy : ManifestMap) (entry : String × manifestData)
    (p : String) :
    removeOp toDeploy entry = some (FsOp.remove p) ↔
      entry.1 = p ∧ mapLookup toDeploy p = none := by
  unfold removeOp
  constructor
  · intro h
    split at h
    · simp at h
    · rename_i hd
      simp only [Option.some.injEq, FsOp.remove.injEq] at h
      subst h
      exact ⟨rfl, hd⟩
  · rintro ⟨h1, h2⟩
    subst h1
    simp [h2]

theorem removeOp_ne_copy (toDeploy : ManifestMap) (entry : String × manifestData)
    (p c : String) : removeOp toDeploy entry ≠ some (FsOp.copy p c) := by
  unfold removeOp
  split <;> simp

theorem Sync_done (s : gitSyncer) (remote : Remote) (calls : List WalkCall) (faults : Faults)
    (fs : FileSystem) (toDeploy deployed : ManifestMap)
    (h1 : manifestsToDeploy s remote = .ok toDeploy)
    (h2 : walkDeployed s fs [] calls = .done deployed) :
    Sync s remote calls faults fs
      = .done { err := none
                fs := (syncLoops s faults toDeploy deployed { fs := fs, ops := [] }).fs
                ops := passOps s faults toDeploy deployed fs } := by
  unfold Sync passOps
  rw [h1]
  simp only [h2]

theorem passOps_eq (s : gitSyncer) (faults : Faults) (toDeploy deployed : ManifestMap)
    (fs : FileSystem) :
    passOps s faults toDeploy deployed fs
      = toDeploy.filterMap (deployOp deployed) ++ deployed.filterMap (removeOp toDeploy) := by
  unfold passOps
  rw [syncLoops_ops]
  simp

theorem copy_mem_passOps (s : gitSyncer) (faults : Faults) (toDeploy deployed : ManifestMap)
    (fs : FileSystem) (p c : String) :
    FsOp.copy p c ∈ passOps s faults toDeploy deployed fs ↔
      ∃ m, (p, m) ∈ toDeploy ∧ c = m.Contents ∧
        (mapLookup deployed p = none ∨ ∃ d, mapLookup deployed p = some d ∧ d.Hash ≠ m.Hash) := by
  rw [passOps_eq, List.mem_append, List.mem_filterMap, List.mem_filterMap]
  constructor
  · rintro (⟨e, he, h⟩ | ⟨e, _, h⟩)
    · obtain ⟨k, m⟩ := e
      obtain ⟨h1, h2, h3⟩ := (deployOp_eq_copy deployed (k, m) p c).mp h
      simp only at h1 h2 h3
      subst h1
      exact ⟨m, he, h2.symm, h3⟩
    · exact absurd h (removeOp_ne_copy toDeploy e p c)
  · rintro ⟨m, hm, hc, h3⟩
    exact Or.inl ⟨(p, m), hm, (deployOp_eq_copy deployed (p, m) p c).mpr ⟨rfl, hc.symm, h3⟩⟩

theorem remove_mem_passOps (s : gitSyncer) (faults : Faults) (toDeploy deployed : ManifestMap)
    (fs : FileSystem) (p : String) :
    FsOp.remove p ∈ passOps s faults toDeploy deployed fs ↔
      (∃ d, (p, d) ∈ deployed) ∧ mapLookup toDeploy p = none := by
  rw [passOps_eq, List.mem_append, List.mem_filterMap, List.mem_filterMap]
  constructor
  · rintro (⟨e, _, h⟩ | ⟨e, he, h⟩)
    · exact absurd h (deployOp_ne_remove deployed e p)
    · obtain ⟨k, d⟩ := e
      obtain ⟨h1, h2⟩ := (removeOp_eq_remove toDeploy (k, d) p).mp h
      simp only at h1
      subst h1
      exact ⟨⟨d, he⟩, h2⟩
  · rintro ⟨⟨d, hd⟩, h2⟩
    exact Or.inr ⟨(p, d), hd, (removeOp_eq_remove toDeploy (p, d) p).mpr ⟨rfl, h2⟩⟩

theorem mapLookup_isSome_iff (m : ManifestMap) (k : String) :
    (∃ v, mapLookup m k = some v) ↔ ∃ v, (k, v) ∈ m := by
  constructor
  · rintro ⟨v, hv⟩
    exact ⟨v, mem_of_mapLookup m k v hv⟩
  · rintro ⟨v, hv⟩
    cases h : mapLookup m k with
    | some w => exact ⟨w, rfl⟩
    | none =>
      have := (mapLookup_eq_none_iff m k).mp h
      exact absurd (List.mem_map_of_mem Prod.fst hv) this

/-- The operations the two loops attempt, under any fault pattern. -/
theorem passOps_classify (s : gitSyncer) (faults : Faults) (fs : FileSystem)
    (toDeploy deployed : ManifestMap) (hd : (mapKeys toDeploy).Nodup) :
    (∀ p c, FsOp.copy p c ∈ passOps s faults toDeploy deployed fs ↔
        ∃ m, mapLookup toDeploy p = some m ∧ c = m.Contents ∧
          (mapLookup deployed p = none ∨
            ∃ d, mapLookup deployed p = some d ∧ d.Hash ≠ m.Hash)) ∧
      (∀ p, FsOp.remove p ∈ passOps s faults toDeploy deployed fs ↔
        (∃ d, mapLookup deployed p = some d) ∧ mapLookup toDeploy p = none) ∧
      (∀ p m d, mapLookup toDeploy p = some m → mapLookup deployed p = some d →
        d.Hash = m.Hash →
          (∀ c, FsOp.copy p c ∉ passOps s faults toDeploy deployed fs) ∧
            FsOp.remove p ∉ passOps s faults toDeploy deployed fs) ∧
      (∀ p c, FsOp.copy p c ∈ passOps s faults toDeploy deployed fs →
        FsOp.remove p ∉ passOps s faults toDeploy deployed fs) := by
  have hcopy : ∀ p c, FsOp.copy p c ∈ passOps s faults toDeploy deployed fs ↔
      ∃ m, mapLookup toDeploy p = some m ∧ c = m.Contents ∧
        (mapLookup deployed p = none ∨
          ∃ d, mapLookup deployed p = some d ∧ d.Hash ≠ m.Hash) := by
    intro p c
    rw [copy_mem_passOps]
    constructor
    · rintro ⟨m, hm, h⟩
      exact ⟨m, mapLookup_of_mem toDeploy p m hd hm, h⟩
    · rintro ⟨m, hm, h⟩
      exact ⟨m, mem_of_mapLookup toDeploy p m hm, h⟩
  have hrem : ∀ p, FsOp.remove p ∈ passOps s faults toDeploy deployed fs ↔
      (∃ d, mapLookup deployed p = some d) ∧ mapLookup toDeploy p = none := by
    intro p
    rw [remove_mem_passOps, mapLookup_isSome_iff]
  refine ⟨hcopy, hrem, ?_, ?_⟩
  · intro p m d hm hdp heq
    constructor
    · intro c hc
      obtain ⟨m1, hm1, _, h3⟩ := (hcopy p c).mp hc
      rw [hm] at hm1
      cases hm1
      rcases h3 with h3 | ⟨d1, hd1, hne⟩
      · rw [hdp] at h3
        cases h3
      · rw [hdp] at hd1
        cases hd1
        exact hne heq
    · intro hr
      have := ((hrem p).mp hr).2
      rw [hm] at this
      cases this
  · intro p c hc hr
    obtain ⟨m1, hm1, _⟩ := (hcopy p c).mp hc
    have := ((hrem p).mp hr).2
    rw [hm1] at this
    cases this

/-- C8: whatever writes and removes fail, Sync returns nil after attempting the same
operations as when none fails: the write of every desired entry that is absent from the
deployed map or differs in hash, and the remove of every deployed entry absent from the
desired map. When every attempt fails the files stay as they were and each operation is
still attempted. -/
theorem sync_attempts_despite_failures (s : gitSyncer) (faults : Faults) (fs : FileSystem)
    (toDeploy deployed : ManifestMap) :
    passOps s faults toDeploy deployed fs = passOps s noFaults toDeploy deployed fs ∧
      (∀ p m, (p, m) ∈ toDeploy →
        (mapLookup deployed p = none ∨ ∃ d, mapLookup deployed p = some d ∧ d.Hash ≠ m.Hash) →
          FsOp.copy p m.Contents ∈ passOps s faults toDeploy deployed fs) ∧
      (∀ p d, (p, d) ∈ deployed → mapLookup toDeploy p = none →
        FsOp.remove p ∈ passOps s faults toDeploy deployed fs) ∧
      (∀ remote calls, manifestsToDeploy s remote = .ok toDeploy →
        walkDeployed s fs [] calls = .done deployed →
          ∃ r, Sync s remote calls faults fs = .done r ∧ r.err = none ∧
            r.ops = passOps s noFaults toDeploy deployed fs) ∧
      syncLoops (NewGitSyncer "repo") (fun _ _ => true) sampleDesired sampleDeployed
          { fs := staleFs, ops := [] }
        = { fs := staleFs, ops := [FsOp.copy "b.yaml" "y", FsOp.remove "c.yaml"] } := by
  refine ⟨by rw [passOps_eq, passOps_eq], ?_, ?_, ?_, by decide⟩
  · intro p m hm h
    exact (copy_mem_passOps s faults toDeploy deployed fs p m.Contents).mpr ⟨m, hm, rfl, h⟩
  · intro p d hd h
    exact (remove_mem_passOps s faults toDeploy deployed fs p).mpr ⟨⟨d, hd⟩, h⟩
  · intro remote calls h1 h2
    refine ⟨_, Sync_done s remote calls faults fs toDeploy deployed h1 h2, rfl, ?_⟩
    simp only
    rw [passOps_eq, passOps_eq]

/-! ## the two snapshot builders -/

theorem ignoreLoop_eq_true_iff (name : String) (pres : List String) :
    ignoreLoop name pres = true ↔ startsWithAny pres name := by
  unfold startsWithAny
  induction pres with
  | nil => simp [ignoreLoop]
  | cons pre rest ih =>
    by_cases h : HasPrefix name pre = true
    · simp only [ignoreLoop, h, if_true, true_iff]
      exact ⟨pre, List.mem_cons_self _ _, h⟩
    · simp only [ignoreLoop, h, if_false, Bool.false_eq_true, ih]
      constructor
      · rintro ⟨q, hq, hq2⟩
        exact ⟨q, List.mem_cons_of_mem _ hq, hq2⟩
      · rintro ⟨q, hq, hq2⟩
        rcases List.mem_cons.mp hq with h1 | h1
        · subst h1
          exact absurd hq2 h
        · exact ⟨q, h1, hq2⟩

theorem mem_mapInsert (m : ManifestMap) (k : String) (v : manifestData)
    (e : String × manifestData) (h : e ∈ mapInsert m k v) : e = (k, v) ∨ e ∈ m := by
  induction m with
  | nil =>
    simp only [mapInsert, List.mem_singleton] at h
    exact Or.inl h
  | cons e1 rest ih =>
    obtain ⟨k1, v1⟩ := e1
    by_cases h1 : k1 = k
    · simp only [mapInsert, h1, if_true, List.mem_cons] at h
      rcases h with h | h
      · exact Or.inl h
      · exact Or.inr (List.mem_cons_of_mem _ h)
    · simp only [mapInsert, h1, if_false, List.mem_cons] at h
      rcases h with h | h
      · exact Or.inr (h ▸ List.mem_cons_self _ _)
      · rcases ih h with h2 | h2
        · exact Or.inl h2
        · exact Or.inr (List.mem_cons_of_mem _ h2)

theorem forEachFn_inv (s : gitSyncer) (P : String × manifestData → Prop) (m : ManifestMap)
    (f : RemoteFile) (hm : ∀ e ∈ m, P e)
    (hf : ∀ c, f.Contents = .ok c → ignoreLoop f.Name s.ignoreList = false →
      suffixLoop f.Name s.validSuffixList = false →
        P (f.Name, { Path := f.Name, Size := f.Size, Hash := sha1FromFileContents c,
                     Contents := c })) :
    ∀ e ∈ forEachFn s m f, P e := by
  unfold forEachFn
  split
  · exact hm
  · rename_i h1
    split
    · exact hm
    · rename_i h2
      split
      · exact hm
      · rename_i c hc
        intro e he
        rcases mem_mapInsert _ _ _ _ he with h3 | h3
        · rw [h3]
          exact hf c hc (by simpa using h1) (by simpa using h2)
        · exact hm e h3

theorem foldl_forEachFn_inv (s : gitSyncer) (P : String × manifestData → Prop)
    (files : List RemoteFile) (m : ManifestMap) (hm : ∀ e ∈ m, P e)
    (hf : ∀ f ∈ files, ∀ c, f.Contents = .ok c → ignoreLoop f.Name s.ignoreList = false →
      suffixLoop f.Name s.validSuffixList = false →
        P (f.Name, { Path := f.Name, Size := f.Size, Hash := sha1FromFileContents c,
                     Contents := c })) :
    ∀ e ∈ files.foldl (forEachFn s) m, P e := by
  induction files generalizing m with
  | nil => simpa using hm
  | cons f rest ih =>
    rw [List.foldl_cons]
    apply ih
    · exact forEachFn_inv s P m f hm (hf f (List.mem_cons_self _ _))
    · intro g hg
      exact hf g (List.mem_cons_of_mem _ hg)

theorem manifestsToDeploy_ok (s : gitSyncer) (remote : Remote) (toDeploy : ManifestMap)
    (h : manifestsToDeploy s remote = .ok toDeploy) :
    ∃ files, remote.files = .ok files ∧ toDeploy = files.foldl (forEachFn s) [] := by
  unfold manifestsToDeploy at h
  split at h
  · cases h
  · split at h
    · cases h
    · split at h
      · cases h
      · split at h
        · cases h
        · rename_i files hfiles
          cases h
          exact ⟨files, hfiles, rfl⟩

theorem walkFn_inv (s : gitSyncer) (fs : FileSystem) (P : String × manifestData → Prop)
    (m out : ManifestMap) (c : WalkCall) (hm : ∀ e ∈ m, P e)
    (hc : ∀ info, c.info = some info → info.IsDir = false →
      ignoreLoop (TrimPrefix c.path s.fsManifestsDir) s.ignoreList = false →
      TrimPrefix c.path s.fsManifestsDir ≠ "" →
        P (TrimPrefix c.path s.fsManifestsDir,
          { Path := TrimPrefix c.path s.fsManifestsDir, Size := info.Size,
            Hash := sha1FromFilePath fs c.path, Contents := "" }))
    (h : walkFn s fs m c = .done out) : ∀ e ∈ out, P e := by
  unfold walkFn at h
  split at h
  · cases h
  · rename_i info hinfo
    split at h
    · cases h
      exact hm
    · rename_i hdir
      simp only at h
      split at h
      · cases h
        exact hm
      · rename_i hign
        split at h
        · cases h
          exact hm
        · rename_i hne
          cases h
          intro e he
          rcases mem_mapInsert _ _ _ _ he with h3 | h3
          · rw [h3]
            exact hc info hinfo (by simpa using hdir) (by simpa using hign) hne
          · exact hm e h3

theorem walkDeployed_inv (s : gitSyncer) (fs : FileSystem) (P : String × manifestData → Prop)
    (calls : List WalkCall) (m out : ManifestMap) (hm : ∀ e ∈ m, P e)
    (hc : ∀ c ∈ calls, ∀ info, c.info = some info → info.IsDir = false →
      ignoreLoop (TrimPrefix c.path s.fsManifestsDir) s.ignoreList = false →
      TrimPrefix c.path s.fsManifestsDir ≠ "" →
        P (TrimPrefix c.path s.fsManifestsDir,
          { Path := TrimPrefix c.path s.fsManifestsDir, Size := info.Size,
            Hash := sha1FromFilePath fs c.path, Contents := "" }))
    (h : walkDeployed s fs m calls = .done out) : ∀ e ∈ out, P e := by
  induction calls generalizing m with
  | nil =>
    simp only [walkDeployed, Run.done.injEq] at h
    subst h
    exact hm
  | cons c rest ih =>
    simp only [walkDeployed] at h
    split at h
    · cases h
    · rename_i m1 hm1
      apply ih m1 _ _ h
      · exact walkFn_inv s fs P m m1 c hm (hc c (List.mem_cons_self _ _)) hm1
      · intro c2 hc2
        exact hc c2 (List.mem_cons_of_mem _ hc2)

theorem mapLookup_eq_none_of_forall (m : ManifestMap) (p : String)
    (h : ∀ e ∈ m, e.1 ≠ p) : mapLookup m p = none := by
  rw [mapLookup_eq_none_iff]
  intro hc
  obtain ⟨e, he, he2⟩ := List.mem_map.mp hc
  exact h e he he2

/-- C6: a path that has an entry of the ignore list as a raw string prefix is a key of
neither the map built by manifestsToDeploy nor the map built by the walk of Sync,
whatever its suffix and whatever the remote, the files and the walk are; and
metrics-server-backup.yaml has the default entry metrics-server, and no other default
entry, as a prefix. -/
theorem ignored_path_in_neither_snapshot (s : gitSyncer) (p : String)
    (h : startsWithAny s.ignoreList p) :
    (∀ remote toDeploy, manifestsToDeploy s remote = .ok toDeploy →
        mapLookup toDeploy p = none) ∧
      (∀ fs calls deployed, walkDeployed s fs [] calls = .done deployed →
        mapLookup deployed p = none) ∧
      (∀ url, startsWithAny (NewGitSyncer url).ignoreList "metrics-server-backup.yaml") ∧
      (∀ pre, pre ∈ manifestIgnoreList →
        (HasPrefix "metrics-server-backup.yaml" pre = true ↔ pre = "metrics-server")) := by
  have hign : ignoreLoop p s.ignoreList = true := (ignoreLoop_eq_true_iff p s.ignoreList).mpr h
  refine ⟨?_, ?_, ?_, ?_⟩
  · intro remote toDeploy hr
    obtain ⟨files, _, htd⟩ := manifestsToDeploy_ok s remote toDeploy hr
    apply mapLookup_eq_none_of_forall
    rw [htd]
    apply foldl_forEachFn_inv s (fun e => e.1 ≠ p) files []
    · simp
    · intro f _ c _ h1 _ hc
      simp only at hc
      rw [hc, hign] at h1
      cases h1
  · intro fs calls deployed hw
    apply mapLookup_eq_none_of_forall
    apply walkDeployed_inv s fs (fun e => e.1 ≠ p) calls [] deployed _ _ hw
    · simp
    · intro c _ info _ _ h1 _ hc
      simp only at hc
      rw [hc, hign] at h1
      cases h1
  · intro url
    exact ⟨"metrics-server", (by decide : "metrics-server" ∈ manifestIgnoreList), by decide⟩
  · decide

/-- Witness of C6: the default syncer and the path metrics-server-backup.yaml. -/
theorem ignored_path_in_neither_snapshot_witness :
    startsWithAny (NewGitSyncer "repo").ignoreList "metrics-server-backup.yaml" ∧
      (∀ remote toDeploy, manifestsToDeploy (NewGitSyncer "repo") remote = .ok toDeploy →
        mapLookup toDeploy "metrics-server-backup.yaml" = none) ∧
      (∀ fs calls deployed, walkDeployed (NewGitSyncer "repo") fs [] calls = .done deployed →
        mapLookup deployed "metrics-server-backup.yaml" = none) :=
  ⟨⟨"metrics-server", by decide, by decide⟩,
    (ignored_path_in_neither_snapshot (NewGitSyncer "repo") "metrics-server-backup.yaml"
      ⟨"metrics-server", by decide, by decide⟩).1,
    (ignored_path_in_neither_snapshot (NewGitSyncer "repo") "metrics-server-backup.yaml"
      ⟨"metrics-server", by decide, by decide⟩).2.1⟩

/-- C7: when the clone, the head lookup, the commit lookup or the file listing fails,
manifestsToDeploy fails and Sync returns a non-nil error with the files as they were and
no operation attempted, for every directory state, walk and fault pattern. -/
theorem sync_remote_failure_no_mutation (s : gitSyncer) (remote : Remote)
    (calls : List WalkCall) (faults : Faults) (fs : FileSystem)
    (h : remote.clone ≠ none ∨ remote.head ≠ none ∨ remote.commitObject ≠ none ∨
      ∃ e, remote.files = .error e) :
    ∃ e, manifestsToDeploy s remote = .error e ∧
      Sync s remote calls faults fs
        = .done { err := some ("fetching manifests to deploy failed: " ++ e)
                  fs := fs
                  ops := [] } := by
  have hmtd : ∃ e, manifestsToDeploy s remote = .error e := by
    unfold manifestsToDeploy
    split
    · exact ⟨_, rfl⟩
    · rename_i h1
      split
      · exact ⟨_, rfl⟩
      · rename_i h2
        split
        · exact ⟨_, rfl⟩
        · rename_i h3
          split
          · exact ⟨_, rfl⟩
          · rename_i files h4
            exfalso
            rcases h with h | h | h | ⟨e, h⟩
            · exact h h1
            · exact h h2
            · exact h h3
            · rw [h4] at h
              cases h
  obtain ⟨e, he⟩ := hmtd
  refine ⟨e, he, ?_⟩
  unfold Sync
  rw [he]

/-- Witness of C7: a remote whose clone fails, over the directory of the scenario. -/
theorem sync_remote_failure_no_mutation_witness :
    (unreachableRemote.clone ≠ none ∨ unreachableRemote.head ≠ none ∨
        unreachableRemote.commitObject ≠ none ∨ ∃ e, unreachableRemote.files = .error e) ∧
      ∃ e, manifestsToDeploy (NewGitSyncer "repo") unreachableRemote = .error e ∧
        Sync (NewGitSyncer "repo") unreachableRemote (filepathWalk scenarioFs manifestsDir)
            noFaults scenarioFs
          = .done { err := some ("fetching manifests to deploy failed: " ++ e)
                    fs := scenarioFs
                    ops := [] } :=
  ⟨Or.inl (by decide),
    sync_remote_failure_no_mutation (NewGitSyncer "repo") unreachableRemote
      (filepathWalk scenarioFs manifestsDir) noFaults scenarioFs (Or.inl (by decide))⟩

/-! ## HandleUpdate -/

/-- C9, counterexample: the clone fails, Sync returns an error, and HandleUpdate still
answers 200. -/
theorem handleUpdate_error_answers_ok :
    Sync (NewGitSyncer "repo") unreachableRemote (filepathWalk scenarioFs manifestsDir)
        noFaults scenarioFs
      = .done { err := some "fetching manifests to deploy failed: clone failed: repository not found"
                fs := scenarioFs
                ops := [] } ∧
    HandleUpdate { Port := 18092, GitRepoURL := "repo" } unreachableRemote
        (filepathWalk scenarioFs manifestsDir) noFaults scenarioFs
      = .done { status := 200
                printed := some "fetching manifests to deploy failed: clone failed: repository not found"
                pass := { err := some "fetching manifests to deploy failed: clone failed: repository not found"
                          fs := scenarioFs
                          ops := [] } } := by
  decide

/-- C9, amended: whenever Sync returns, with an error or without, HandleUpdate answers
with status 200; the error of Sync is printed and nothing else is done with it. -/
theorem handleUpdate_always_ok (conf : Config) (remote : Remote) (calls : List WalkCall)
    (faults : Faults) (fs : FileSystem) (r : SyncResult)
    (h : Sync (NewGitSyncer conf.GitRepoURL) remote calls faults fs = .done r) :
    HandleUpdate conf remote calls faults fs
      = .done { status := 200, printed := r.err, pass := r } := by
  unfold HandleUpdate
  simp only [h]
  rfl

/-- Witness of the amended C9: a pass that returns no error. -/
theorem handleUpdate_always_ok_witness :
    Sync (NewGitSyncer "repo") scenarioRemote (filepathWalk scenarioFs manifestsDir)
        noFaults scenarioFs
      = .done { err := none, fs := [(manifestsDir ++ "a.yaml", "x")],
                ops := [FsOp.remove "c.yml"] } ∧
    HandleUpdate { Port := 18092, GitRepoURL := "repo" } scenarioRemote
        (filepathWalk scenarioFs manifestsDir) noFaults scenarioFs
      = .done { status := 200, printed := none,
                pass := { err := none, fs := [(manifestsDir ++ "a.yaml", "x")],
                          ops := [FsOp.remove "c.yml"] } } :=
  ⟨by decide,
    handleUpdate_always_ok { Port := 18092, GitRepoURL := "repo" } scenarioRemote
      (filepathWalk scenarioFs manifestsDir) noFaults scenarioFs
      { err := none, fs := [(manifestsDir ++ "a.yaml", "x")], ops := [FsOp.remove "c.yml"] }
      (by decide)⟩

/-! ## strings and paths -/

theorem HasPrefix_append (root p : String) : HasPrefix (root ++ p) root = true := by
  unfold HasPrefix
  rw [String.data_append, List.isPrefixOf_iff_prefix]
  exact List.prefix_append _ _

theorem TrimPrefix_append (root p : String) : TrimPrefix (root ++ p) root = p := by
  unfold TrimPrefix
  rw [HasPrefix_append]
  simp only [if_true, String.data_append, List.drop_left]

theorem eq_append_TrimPrefix (path root : String) (h : HasPrefix path root = true) :
    path = root ++ TrimPrefix path root := by
  unfold TrimPrefix
  rw [h]
  unfold HasPrefix at h
  rw [List.isPrefixOf_iff_prefix, List.prefix_iff_eq_append] at h
  apply String.ext
  simp only [if_true, String.data_append]
  exact h.symm

theorem append_left_cancel (root p q : String) (h : root ++ p = root ++ q) : p = q := by
  have h2 := congrArg String.data h
  rw [String.data_append, String.data_append] at h2
  exact String.ext (List.append_cancel_left h2)

theorem filepathJoin_ne (root p q : String) (h : p ≠ q) :
    filepathJoin root p ≠ filepathJoin root q := by
  intro hc
  exact h (append_left_cancel root p q hc)

/-! ## the filesystem -/

theorem fsRead_eq_none_iff (fs : FileSystem) (path : String) :
    fsRead fs path = none ↔ ∀ e ∈ fs, e.1 ≠ path := by
  induction fs with
  | nil => simp [fsRead]
  | cons e rest ih =>
    obtain ⟨p, c⟩ := e
    by_cases h : p = path
    · simp [fsRead, h]
    · simp [fsRead, h, ih]

theorem fsRead_fsRemove_self (fs : FileSystem) (path : String) :
    fsRead (fsRemove fs path) path = none := by
  rw [fsRead_eq_none_iff]
  intro e he
  unfold fsRemove at he
  simpa using (List.mem_filter.mp he).2

theorem fsRead_fsRemove_ne (fs : FileSystem) (path other : String) (h : path ≠ other) :
    fsRead (fsRemove fs path) other = fsRead fs other := by
  induction fs with
  | nil => simp [fsRemove, fsRead]
  | cons e rest ih =>
    obtain ⟨p, c⟩ := e
    simp only [fsRemove, decide_not] at ih
    by_cases h1 : p = path
    · subst h1
      simp [fsRemove, fsRead, h, ih]
    · by_cases h2 : p = other
      · subst h2
        simp [fsRemove, fsRead, h1]
      · simp [fsRemove, fsRead, h1, h2, ih]

theorem fsRead_fsWrite_self (fs : FileSystem) (path contents : String) :
    fsRead (fsWrite fs path contents) path = some contents := by
  simp [fsWrite, fsRead]

theorem fsRead_fsWrite_ne (fs : FileSystem) (path other contents : String) (h : path ≠ other) :
    fsRead (fsWrite fs path contents) other = fsRead fs other := by
  simp [fsWrite, fsRead, h, fsRead_fsRemove_ne fs path other h]

/-! ## the effect of the two loops on the files when nothing fails -/

theorem deployStep_fs (s : gitSyncer) (deployed : ManifestMap) (st : SyncState)
    (e : String × manifestData) :
    (deployStep s noFaults deployed st e).fs
      = match deployOp deployed e with
        | none => st.fs
        | some _ => fsWrite st.fs (filepathJoin s.fsManifestsDir e.1) e.2.Contents := by
  unfold deployStep deployOp
  split
  · split
    · rfl
    · simp [copyManifest, noFaults]
  · simp [copyManifest, noFaults]

theorem removeStep_fs (s : gitSyncer) (toDeploy : ManifestMap) (st : SyncState)
    (e : String × manifestData) :
    (removeStep s noFaults toDeploy st e).fs
      = match removeOp toDeploy e with
        | none => st.fs
        | some _ => fsRemove st.fs (filepathJoin s.fsManifestsDir e.1) := by
  unfold removeStep removeOp
  split
  · rfl
  · simp [removeManifest, noFaults]

theorem foldl_deployStep_fs_other (s : gitSyncer) (deployed : ManifestMap)
    (entries : ManifestMap) (st : SyncState) (path : String)
    (h : ∀ e ∈ entries, deployOp deployed e ≠ none →
      filepathJoin s.fsManifestsDir e.1 ≠ path) :
    fsRead (entries.foldl (deployStep s noFaults deployed) st).fs path = fsRead st.fs path := by
  induction entries generalizing st with
  | nil => rfl
  | cons e rest ih =>
    rw [List.foldl_cons, ih _ (fun e2 he2 => h e2 (List.mem_cons_of_mem _ he2)), deployStep_fs]
    have he := h e (List.mem_cons_self _ _)
    cases hop : deployOp deployed e with
    | none => rfl
    | some op =>
      simp only
      exact fsRead_fsWrite_ne _ _ _ _ (he (by simp [hop]))

theorem foldl_deployStep_fs_written (s : gitSyncer) (deployed : ManifestMap)
    (entries : ManifestMap) (st : SyncState) (e : String × manifestData)
    (hnd : (mapKeys entries).Nodup) (he : e ∈ entries) (hop : deployOp deployed e ≠ none) :
    fsRead (entries.foldl (deployStep s noFaults deployed) st).fs
        (filepathJoin s.fsManifestsDir e.1) = some e.2.Contents := by
  induction entries generalizing st with
  | nil => simp at he
  | cons e0 rest ih =>
    have hnd2 : e0.1 ∉ mapKeys rest ∧ (mapKeys rest).Nodup := by
      simpa [mapKeys] using hnd
    rw [List.foldl_cons]
    rcases List.mem_cons.mp he with h1 | h1
    · subst h1
      rw [foldl_deployStep_fs_other, deployStep_fs]
      · cases hop2 : deployOp deployed e with
        | none => exact absurd hop2 hop
        | some op =>
          simp only
          exact fsRead_fsWrite_self _ _ _
      · intro e2 he2 _ hc
        have : e2.1 = e.1 := append_left_cancel _ _ _ hc
        exact hnd2.1 (this ▸ List.mem_map_of_mem Prod.fst he2)
    · exact ih _ hnd2.2 h1

theorem foldl_removeStep_fs_other (s : gitSyncer) (toDeploy : ManifestMap)
    (entries : ManifestMap) (st : SyncState) (path : String)
    (h : ∀ e ∈ entries, removeOp toDeploy e ≠ none →
      filepathJoin s.fsManifestsDir e.1 ≠ path) :
    fsRead (entries.foldl (removeStep s noFaults toDeploy) st).fs path = fsRead st.fs path := by
  induction entries generalizing st with
  | nil => rfl
  | cons e rest ih =>
    rw [List.foldl_cons, ih _ (fun e2 he2 => h e2 (List.mem_cons_of_mem _ he2)), removeStep_fs]
    have he := h e (List.mem_cons_self _ _)
    cases hop : removeOp toDeploy e with
    | none => rfl
    | some op =>
      simp only
      exact fsRead_fsRemove_ne _ _ _ (he (by simp [hop]))

theorem foldl_removeStep_fs_none (s : gitSyncer) (toDeploy : ManifestMap)
    (entries : ManifestMap) (st : SyncState) (path : String)
    (h : fsRead st.fs path = none) :
    fsRead (entries.foldl (removeStep s noFaults toDeploy) st).fs path = none := by
  induction entries generalizing st with
  | nil => exact h
  | cons e rest ih =>
    rw [List.foldl_cons]
    apply ih
    rw [removeStep_fs]
    cases hop : removeOp toDeploy e with
    | none => exact h
    | some op =>
      simp only
      by_cases hp : filepathJoin s.fsManifestsDir e.1 = path
      · rw [hp]
        exact fsRead_fsRemove_self _ _
      · rw [fsRead_fsRemove_ne _ _ _ hp]
        exact h

theorem foldl_removeStep_fs_removed (s : gitSyncer) (toDeploy : ManifestMap)
    (entries : ManifestMap) (st : SyncState) (e : String × manifestData)
    (he : e ∈ entries) (hop : removeOp toDeploy e ≠ none) :
    fsRead (entries.foldl (removeStep s noFaults toDeploy) st).fs
        (filepathJoin s.fsManifestsDir e.1) = none := by
  induction entries generalizing st with
  | nil => simp at he
  | cons e0 rest ih =>
    rw [List.foldl_cons]
    rcases List.mem_cons.mp he with h1 | h1
    · subst h1
      apply foldl_removeStep_fs_none
      rw [removeStep_fs]
      cases hop2 : removeOp toDeploy e with
      | none => exact absurd hop2 hop
      | some op =>
        simp only
        exact fsRead_fsRemove_self _ _
    · exact ih _ h1

/-! ## the walk over a readable tree -/

theorem walkFn_done (s : gitSyncer) (fs : FileSystem) (m : ManifestMap) (c : WalkCall)
    (h : c.info ≠ none) : ∃ out, walkFn s fs m c = .done out := by
  unfold walkFn
  split
  · rename_i hn
    exact absurd hn h
  · split
    · exact ⟨_, rfl⟩
    · simp only
      split
      · exact ⟨_, rfl⟩
      · split
        · exact ⟨_, rfl⟩
        · exact ⟨_, rfl⟩

theorem walkDeployed_done (s : gitSyncer) (fs : FileSystem) (calls : List WalkCall)
    (m : ManifestMap) (h : ∀ c ∈ calls, c.info ≠ none) :
    ∃ out, walkDeployed s fs m calls = .done out := by
  induction calls generalizing m with
  | nil => exact ⟨m, rfl⟩
  | cons c rest ih =>
    obtain ⟨m1, hm1⟩ := walkFn_done s fs m c (h c (List.mem_cons_self _ _))
    obtain ⟨out, hout⟩ := ih m1 (fun c2 hc2 => h c2 (List.mem_cons_of_mem _ hc2))
    refine ⟨out, ?_⟩
    simp only [walkDeployed, hm1]
    exact hout

theorem mem_filepathWalk (fs : FileSystem) (root : String) (c : WalkCall)
    (h : c ∈ filepathWalk fs root) :
    c.info = some { Size := 4096, IsDir := true } ∨
      ∃ e ∈ fs, HasPrefix e.1 root = true ∧ c.path = e.1 ∧
        c.info = some { Size := (goBytes e.2).length, IsDir := false } := by
  unfold filepathWalk at h
  rcases List.mem_cons.mp h with h1 | h1
  · left
    rw [h1]
  · right
    obtain ⟨e, he, hc⟩ := List.mem_map.mp h1
    obtain ⟨he1, he2⟩ := List.mem_filter.mp he
    refine ⟨e, he1, he2, ?_, ?_⟩
    · rw [← hc]
    · rw [← hc]

theorem filepathWalk_info (fs : FileSystem) (root : String) :
    ∀ c ∈ filepathWalk fs root, c.info ≠ none := by
  intro c hc
  rcases mem_filepathWalk fs root c hc with h | ⟨e, _, _, _, h⟩
  · rw [h]
    simp
  · rw [h]
    simp

theorem mem_fs_of_fsRead (fs : FileSystem) (path : String) (h : fsRead fs path ≠ none) :
    ∃ c, (path, c) ∈ fs := by
  by_contra hc
  apply h
  rw [fsRead_eq_none_iff]
  intro e he heq
  apply hc
  exact ⟨e.2, by rw [← heq]; exact he⟩

theorem fsRead_ne_none_of_mem (fs : FileSystem) (e : String × String) (h : e ∈ fs) :
    fsRead fs e.1 ≠ none := by
  intro hc
  exact (fsRead_eq_none_iff fs e.1).mp hc e h rfl

theorem walkFn_keys_mono (s : gitSyncer) (fs : FileSystem) (m out : ManifestMap)
    (c : WalkCall) (h : walkFn s fs m c = .done out) :
    ∀ k ∈ mapKeys m, k ∈ mapKeys out := by
  unfold walkFn at h
  split at h
  · cases h
  · split at h
    · cases h
      exact fun k hk => hk
    · simp only at h
      split at h
      · cases h
        exact fun k hk => hk
      · split at h
        · cases h
          exact fun k hk => hk
        · cases h
          intro k hk
          exact (mapKeys_mapInsert_mem _ _ _ _).mpr (Or.inr hk)

theorem walkDeployed_keys_mono (s : gitSyncer) (fs : FileSystem) (calls : List WalkCall)
    (m out : ManifestMap) (h : walkDeployed s fs m calls = .done out) :
    ∀ k ∈ mapKeys m, k ∈ mapKeys out := by
  induction calls generalizing m with
  | nil =>
    simp only [walkDeployed, Run.done.injEq] at h
    subst h
    exact fun k hk => hk
  | cons c rest ih =>
    simp only [walkDeployed] at h
    split at h
    · cases h
    · rename_i m1 hm1
      intro k hk
      exact ih m1 h k (walkFn_keys_mono s fs m m1 c hm1 k hk)

theorem walkFn_inserts (s : gitSyncer) (fs : FileSystem) (m out : ManifestMap)
    (c : WalkCall) (info : FileInfo) (h : walkFn s fs m c = .done out)
    (hinfo : c.info = some info) (hdir : info.IsDir = false)
    (hign : ignoreLoop (TrimPrefix c.path s.fsManifestsDir) s.ignoreList = false)
    (hne : TrimPrefix c.path s.fsManifestsDir ≠ "") :
    TrimPrefix c.path s.fsManifestsDir ∈ mapKeys out := by
  unfold walkFn at h
  rw [hinfo] at h
  simp only [hdir, hign, hne, if_false, Bool.false_eq_true] at h
  cases h
  exact (mapKeys_mapInsert_mem _ _ _ _).mpr (Or.inl rfl)

theorem walkDeployed_complete (s : gitSyncer) (fs : FileSystem) (calls : List WalkCall)
    (m out : ManifestMap) (c : WalkCall) (info : FileInfo)
    (h : walkDeployed s fs m calls = .done out) (hc : c ∈ calls)
    (hinfo : c.info = some info) (hdir : info.IsDir = false)
    (hign : ignoreLoop (TrimPrefix c.path s.fsManifestsDir) s.ignoreList = false)
    (hne : TrimPrefix c.path s.fsManifestsDir ≠ "") :
    TrimPrefix c.path s.fsManifestsDir ∈ mapKeys out := by
  induction calls generalizing m with
  | nil => simp at hc
  | cons c0 rest ih =>
    simp only [walkDeployed] at h
    split at h
    · cases h
    · rename_i m1 hm1
      rcases List.mem_cons.mp hc with h1 | h1
      · subst h1
        exact walkDeployed_keys_mono s fs rest m1 out h _
          (walkFn_inserts s fs m m1 c info hm1 hinfo hdir hign hne)
      · exact ih m1 h h1

theorem walk_DeployedOf (s : gitSyncer) (fs : FileSystem) (deployed : ManifestMap)
    (h : walkDeployed s fs [] (filepathWalk fs s.fsManifestsDir) = .done deployed) :
    DeployedOf s fs deployed := by
  constructor
  · apply walkDeployed_inv s fs
      (fun e => e.2.Hash = sha1FromFilePath fs (filepathJoin s.fsManifestsDir e.1) ∧
        fsRead fs (filepathJoin s.fsManifestsDir e.1) ≠ none ∧
        ignoreLoop e.1 s.ignoreList = false ∧ e.1 ≠ "")
      (filepathWalk fs s.fsManifestsDir) [] deployed _ _ h
    · simp
    · intro c hc info hinfo hdir hign hne
      rcases mem_filepathWalk fs _ c hc with h1 | ⟨e, he, hpre, hpath, _⟩
      · rw [hinfo] at h1
        cases h1
        cases hdir
      · have hjoin : filepathJoin s.fsManifestsDir (TrimPrefix c.path s.fsManifestsDir)
            = c.path := by
          unfold filepathJoin
          rw [hpath]
          exact (eq_append_TrimPrefix e.1 _ hpre).symm
        simp only
        rw [hjoin]
        refine ⟨rfl, ?_, hign, hne⟩
        rw [hpath]
        exact fsRead_ne_none_of_mem fs e he
  · intro k hk hign hne
    obtain ⟨c, hc⟩ := mem_fs_of_fsRead fs _ hk
    have hpre : HasPrefix (filepathJoin s.fsManifestsDir k) s.fsManifestsDir = true :=
      HasPrefix_append _ _
    have htrim : TrimPrefix (filepathJoin s.fsManifestsDir k) s.fsManifestsDir = k :=
      TrimPrefix_append _ _
    have hcall : ({ path := filepathJoin s.fsManifestsDir k,
                    info := some { Size := (goBytes c).length, IsDir := false },
                    err := none } : WalkCall) ∈ filepathWalk fs s.fsManifestsDir := by
      unfold filepathWalk
      apply List.mem_cons_of_mem
      apply List.mem_map.mpr
      exact ⟨(filepathJoin s.fsManifestsDir k, c), List.mem_filter.mpr ⟨hc, hpre⟩, rfl⟩
    have := walkDeployed_complete s fs _ [] deployed _ _ h hcall rfl rfl
      (by simp only; rw [htrim]; exact hign) (by simp only; rw [htrim]; exact hne)
    simp only at this
    rw [htrim] at this
    exact this

/-! ## the desired map -/

theorem forEachFn_nodup (s : gitSyncer) (m : ManifestMap) (f : RemoteFile)
    (h : (mapKeys m).Nodup) : (mapKeys (forEachFn s m f)).Nodup := by
  unfold forEachFn
  split
  · exact h
  · split
    · exact h
    · split
      · exact h
      · exact mapKeys_mapInsert_nodup _ _ _ h

theorem foldl_forEachFn_nodup (s : gitSyncer) (files : List RemoteFile) (m : ManifestMap)
    (h : (mapKeys m).Nodup) : (mapKeys (files.foldl (forEachFn s) m)).Nodup := by
  induction files generalizing m with
  | nil => exact h
  | cons f rest ih =>
    rw [List.foldl_cons]
    exact ih _ (forEachFn_nodup s m f h)

theorem manifestsToDeploy_nodup (s : gitSyncer) (remote : Remote) (toDeploy : ManifestMap)
    (h : manifestsToDeploy s remote = .ok toDeploy) : (mapKeys toDeploy).Nodup := by
  obtain ⟨files, _, htd⟩ := manifestsToDeploy_ok s remote toDeploy h
  rw [htd]
  exact foldl_forEachFn_nodup s files [] (by simp [mapKeys])

theorem manifestsToDeploy_entries (s : gitSyncer) (remote : Remote) (toDeploy : ManifestMap)
    (h : manifestsToDeploy s remote = .ok toDeploy) :
    ∀ e ∈ toDeploy, e.2.Hash = sha1FromFileContents e.2.Contents ∧
      ignoreLoop e.1 s.ignoreList = false ∧
      ∃ files f, remote.files = .ok files ∧ f ∈ files ∧ f.Name = e.1 := by
  obtain ⟨files, hfiles, htd⟩ := manifestsToDeploy_ok s remote toDeploy h
  rw [htd]
  apply foldl_forEachFn_inv s
    (fun e => e.2.Hash = sha1FromFileContents e.2.Contents ∧
      ignoreLoop e.1 s.ignoreList = false ∧
      ∃ files f, remote.files = .ok files ∧ f ∈ files ∧ f.Name = e.1) files []
  · simp
  · intro f hf c _ hign _
    exact ⟨rfl, hign, files, f, hfiles, hf, rfl⟩

/-! ## a pass in which nothing fails -/

theorem deployOp_ne_none_of_lookup_none (toDeploy : ManifestMap)
    (e : String × manifestData) (h : mapLookup toDeploy e.1 = none) :
    removeOp toDeploy e ≠ none := by
  unfold removeOp
  rw [h]
  simp

theorem removeOp_ne_none_lookup (toDeploy : ManifestMap) (e : String × manifestData)
    (h : removeOp toDeploy e ≠ none) : mapLookup toDeploy e.1 = none := by
  unfold removeOp at h
  split at h
  · exact absurd rfl h
  · assumption

theorem deployOp_eq_none (deployed : ManifestMap) (e : String × manifestData)
    (h : deployOp deployed e = none) :
    ∃ d, mapLookup deployed e.1 = some d ∧ d.Hash = e.2.Hash := by
  unfold deployOp at h
  split at h
  · rename_i d hd
    split at h
    · rename_i heq
      exact ⟨d, hd, heq⟩
    · cases h
  · cases h

theorem pass_files (s : gitSyncer) (fs : FileSystem) (toDeploy deployed : ManifestMap)
    (hnd : (mapKeys toDeploy).Nodup)
    (hhash : ∀ e ∈ toDeploy, e.2.Hash = sha1FromFileContents e.2.Contents)
    (hdep : DeployedOf s fs deployed) :
    (∀ e ∈ toDeploy,
        fsRead (syncLoops s noFaults toDeploy deployed { fs := fs, ops := [] }).fs
            (filepathJoin s.fsManifestsDir e.1) ≠ none ∧
        sha1FromFilePath (syncLoops s noFaults toDeploy deployed { fs := fs, ops := [] }).fs
            (filepathJoin s.fsManifestsDir e.1) = e.2.Hash) ∧
      (∀ q, mapLookup toDeploy q = none →
        (q ∈ mapKeys deployed ∨ fsRead fs (filepathJoin s.fsManifestsDir q) = none) →
        fsRead (syncLoops s noFaults toDeploy deployed { fs := fs, ops := [] }).fs
          (filepathJoin s.fsManifestsDir q) = none) := by
  constructor
  · intro e he
    have hkeep : fsRead (syncLoops s noFaults toDeploy deployed { fs := fs, ops := [] }).fs
        (filepathJoin s.fsManifestsDir e.1)
        = fsRead (toDeploy.foldl (deployStep s noFaults deployed) { fs := fs, ops := [] }).fs
          (filepathJoin s.fsManifestsDir e.1) := by
      unfold syncLoops
      apply foldl_removeStep_fs_other
      intro e2 _ hop hc
      have hk : e2.1 = e.1 := append_left_cancel _ _ _ hc
      have hl := removeOp_ne_none_lookup toDeploy e2 hop
      rw [hk, mapLookup_of_mem toDeploy e.1 e.2 hnd he] at hl
      cases hl
    cases hop : deployOp deployed e with
    | some op =>
      have hw := foldl_deployStep_fs_written s deployed toDeploy { fs := fs, ops := [] } e hnd he
        (by rw [hop]; simp)
      unfold sha1FromFilePath
      rw [hkeep, hw]
      refine ⟨by simp, ?_⟩
      simp only
      exact (hhash e he).symm
    | none =>
      obtain ⟨d, hd, heq⟩ := deployOp_eq_none deployed e hop
      have hsame : fsRead (toDeploy.foldl (deployStep s noFaults deployed)
            { fs := fs, ops := [] }).fs (filepathJoin s.fsManifestsDir e.1)
          = fsRead fs (filepathJoin s.fsManifestsDir e.1) := by
        apply foldl_deployStep_fs_other
        intro e2 he2 hop2 hc
        have hk : e2.1 = e.1 := append_left_cancel _ _ _ hc
        have h2 : mapLookup toDeploy e2.1 = some e2.2 := mapLookup_of_mem toDeploy _ _ hnd he2
        have h1 : mapLookup toDeploy e.1 = some e.2 := mapLookup_of_mem toDeploy _ _ hnd he
        rw [hk, h1] at h2
        have he2eq : e2 = e := Prod.ext hk (Option.some.inj h2).symm
        rw [he2eq] at hop2
        exact hop2 hop
      have hdmem := hdep.1 (e.1, d) (mem_of_mapLookup deployed e.1 d hd)
      simp only at hdmem
      unfold sha1FromFilePath
      rw [hkeep, hsame]
      refine ⟨hdmem.2.1, ?_⟩
      have := hdmem.1
      unfold sha1FromFilePath at this
      rw [← this]
      exact heq
  · intro q hq hcase
    unfold syncLoops
    rcases hcase with hmem | hnone
    · obtain ⟨e, he, heq⟩ := List.mem_map.mp hmem
      have := foldl_removeStep_fs_removed s toDeploy deployed
        (toDeploy.foldl (deployStep s noFaults deployed) { fs := fs, ops := [] }) e he
        (deployOp_ne_none_of_lookup_none toDeploy e (by rw [heq]; exact hq))
      rw [heq] at this
      exact this
    · apply foldl_removeStep_fs_none
      rw [foldl_deployStep_fs_other]
      · exact hnone
      · intro e2 he2 _ hc
        have hk : e2.1 = q := append_left_cancel _ _ _ hc
        have h2 : mapLookup toDeploy e2.1 = some e2.2 := mapLookup_of_mem toDeploy _ _ hnd he2
        rw [hk, hq] at h2
        cases h2

theorem filterMap_eq_nil_of_forall {α β : Type} (f : α → Option β) (l : List α)
    (h : ∀ a ∈ l, f a = none) : l.filterMap f = [] := by
  induction l with
  | nil => rfl
  | cons a rest ih =>
    rw [List.filterMap_cons, h a (List.mem_cons_self _ _)]
    exact ih (fun b hb => h b (List.mem_cons_of_mem _ hb))

theorem foldl_deployStep_fs_noop (s : gitSyncer) (deployed entries : ManifestMap)
    (st : SyncState) (h : ∀ e ∈ entries, deployOp deployed e = none) :
    (entries.foldl (deployStep s noFaults deployed) st).fs = st.fs := by
  induction entries generalizing st with
  | nil => rfl
  | cons e rest ih =>
    rw [List.foldl_cons, ih _ (fun e2 he2 => h e2 (List.mem_cons_of_mem _ he2)), deployStep_fs,
      h e (List.mem_cons_self _ _)]

theorem foldl_removeStep_fs_noop (s : gitSyncer) (toDeploy entries : ManifestMap)
    (st : SyncState) (h : ∀ e ∈ entries, removeOp toDeploy e = none) :
    (entries.foldl (removeStep s noFaults toDeploy) st).fs = st.fs := by
  induction entries generalizing st with
  | nil => rfl
  | cons e rest ih =>
    rw [List.foldl_cons, ih _ (fun e2 he2 => h e2 (List.mem_cons_of_mem _ he2)), removeStep_fs,
      h e (List.mem_cons_self _ _)]

theorem second_pass_noop (s : gitSyncer) (fs : FileSystem)
    (toDeploy deployed deployed2 : ManifestMap)
    (hnd : (mapKeys toDeploy).Nodup)
    (hent : ∀ e ∈ toDeploy, e.2.Hash = sha1FromFileContents e.2.Contents ∧
      ignoreLoop e.1 s.ignoreList = false ∧ e.1 ≠ "")
    (hdep : DeployedOf s fs deployed)
    (hdep2 : DeployedOf s (syncLoops s noFaults toDeploy deployed { fs := fs, ops := [] }).fs
      deployed2) :
    (∀ e ∈ toDeploy, deployOp deployed2 e = none) ∧
      (∀ e ∈ deployed2, removeOp toDeploy e = none) := by
  obtain ⟨hfiles, hgone⟩ := pass_files s fs toDeploy deployed hnd
    (fun e he => (hent e he).1) hdep
  constructor
  · intro e he
    obtain ⟨hex, hsha⟩ := hfiles e he
    have hkey := hdep2.2 e.1 hex (hent e he).2.1 (hent e he).2.2
    obtain ⟨e2, he2, hk⟩ := List.mem_map.mp hkey
    obtain ⟨d, hd⟩ := (mapLookup_isSome_iff deployed2 e.1).mpr ⟨e2.2, by rw [← hk]; exact he2⟩
    have hdh := (hdep2.1 (e.1, d) (mem_of_mapLookup deployed2 e.1 d hd)).1
    simp only at hdh
    unfold deployOp
    rw [hd]
    simp only
    rw [if_pos (hdh.trans hsha)]
  · intro e he
    obtain ⟨_, hex, hign, hne⟩ := hdep2.1 e he
    cases hl : mapLookup toDeploy e.1 with
    | some m =>
      unfold removeOp
      rw [hl]
    | none =>
      exfalso
      apply hex
      apply hgone e.1 hl
      by_cases hfs : fsRead fs (filepathJoin s.fsManifestsDir e.1) = none
      · exact Or.inr hfs
      · exact Or.inl (hdep.2 e.1 hfs hign hne)

/-- C5: a pass over a readable directory in which no write and no remove fails returns
nil, and after it every path of the desired map is a file under the managed directory
whose sha1FromFilePath equals the hash of the desired record, itself the
sha1FromFileContents of the remote contents, while every path of the deployed map that
is absent from the desired map is no longer a file. -/
theorem sync_converges (s : gitSyncer) (remote : Remote) (fs : FileSystem)
    (toDeploy : ManifestMap) (h : manifestsToDeploy s remote = .ok toDeploy) :
    ∃ deployed r,
      walkDeployed s fs [] (filepathWalk fs s.fsManifestsDir) = .done deployed ∧
      Sync s remote (filepathWalk fs s.fsManifestsDir) noFaults fs = .done r ∧
      r.err = none ∧
      (∀ p m, mapLookup toDeploy p = some m →
        fsRead r.fs (filepathJoin s.fsManifestsDir p) ≠ none ∧
        sha1FromFilePath r.fs (filepathJoin s.fsManifestsDir p) = m.Hash ∧
        m.Hash = sha1FromFileContents m.Contents) ∧
      (∀ p, (∃ d, mapLookup deployed p = some d) → mapLookup toDeploy p = none →
        fsRead r.fs (filepathJoin s.fsManifestsDir p) = none) := by
  obtain ⟨deployed, hw⟩ := walkDeployed_done s fs (filepathWalk fs s.fsManifestsDir) []
    (filepathWalk_info fs s.fsManifestsDir)
  have hent := manifestsToDeploy_entries s remote toDeploy h
  obtain ⟨hfiles, hgone⟩ := pass_files s fs toDeploy deployed
    (manifestsToDeploy_nodup s remote toDeploy h) (fun e he => (hent e he).1)
    (walk_DeployedOf s fs deployed hw)
  refine ⟨deployed, _, hw, Sync_done s remote _ noFaults fs toDeploy deployed h hw, rfl, ?_, ?_⟩
  · intro p m hm
    have hmem := mem_of_mapLookup toDeploy p m hm
    exact ⟨(hfiles (p, m) hmem).1, (hfiles (p, m) hmem).2, (hent (p, m) hmem).1⟩
  · rintro p ⟨d, hd⟩ hnone
    exact hgone p hnone
      (Or.inl (List.mem_map_of_mem Prod.fst (mem_of_mapLookup deployed p d hd)))

/-- C4: over a readable directory and with no failing write or remove, a second Sync
with the same remote, run on the files the first Sync left, attempts no write and no
remove and leaves the files as they are. The names of the remote files are not empty. -/
theorem sync_twice_second_is_noop (s : gitSyncer) (remote : Remote) (fs : FileSystem)
    (hnames : ∀ files, remote.files = .ok files → ∀ f ∈ files, f.Name ≠ "") :
    ∃ r1 r2,
      Sync s remote (filepathWalk fs s.fsManifestsDir) noFaults fs = .done r1 ∧
      Sync s remote (filepathWalk r1.fs s.fsManifestsDir) noFaults r1.fs = .done r2 ∧
      r2.ops = [] ∧ r2.fs = r1.fs := by
  cases h : manifestsToDeploy s remote with
  | error e =>
    refine ⟨{ err := some ("fetching manifests to deploy failed: " ++ e), fs := fs, ops := [] },
      { err := some ("fetching manifests to deploy failed: " ++ e), fs := fs, ops := [] },
      ?_, ?_, rfl, rfl⟩
    · unfold Sync
      rw [h]
    · unfold Sync
      rw [h]
  | ok toDeploy =>
    obtain ⟨deployed, hw⟩ := walkDeployed_done s fs (filepathWalk fs s.fsManifestsDir) []
      (filepathWalk_info fs s.fsManifestsDir)
    have h1 := Sync_done s remote _ noFaults fs toDeploy deployed h hw
    obtain ⟨deployed2, hw2⟩ := walkDeployed_done s
      (syncLoops s noFaults toDeploy deployed { fs := fs, ops := [] }).fs
      (filepathWalk (syncLoops s noFaults toDeploy deployed { fs := fs, ops := [] }).fs
        s.fsManifestsDir) [] (filepathWalk_info _ s.fsManifestsDir)
    have h2 := Sync_done s remote _ noFaults _ toDeploy deployed2 h hw2
    have hent := manifestsToDeploy_entries s remote toDeploy h
    obtain ⟨hno1, hno2⟩ := second_pass_noop s fs toDeploy deployed deployed2
      (manifestsToDeploy_nodup s remote toDeploy h)
      (fun e he => by
        obtain ⟨hh, hi, files, f, hfiles, hf, hname⟩ := hent e he
        exact ⟨hh, hi, hname ▸ hnames files hfiles f hf⟩)
      (walk_DeployedOf s fs deployed hw) (walk_DeployedOf s _ deployed2 hw2)
    refine ⟨_, _, h1, h2, ?_, ?_⟩
    · simp only
      rw [passOps_eq, filterMap_eq_nil_of_forall _ _ hno1, filterMap_eq_nil_of_forall _ _ hno2]
      rfl
    · simp only
      unfold syncLoops
      rw [foldl_removeStep_fs_noop _ _ _ _ hno2, foldl_deployStep_fs_noop _ _ _ _ hno1]

/-- Witness of C5: a changed file, a new file, a file the remote lacks. -/
theorem sync_converges_witness :
    manifestsToDeploy (NewGitSyncer "repo") changedRemote = .ok changedDesired ∧
      ∃ deployed r,
        walkDeployed (NewGitSyncer "repo") staleFs []
            (filepathWalk staleFs (NewGitSyncer "repo").fsManifestsDir) = .done deployed ∧
        Sync (NewGitSyncer "repo") changedRemote
            (filepathWalk staleFs (NewGitSyncer "repo").fsManifestsDir) noFaults staleFs
          = .done r ∧
        r.err = none ∧
        (∀ p m, mapLookup changedDesired p = some m →
          fsRead r.fs (filepathJoin (NewGitSyncer "repo").fsManifestsDir p) ≠ none ∧
          sha1FromFilePath r.fs (filepathJoin (NewGitSyncer "repo").fsManifestsDir p) = m.Hash ∧
          m.Hash = sha1FromFileContents m.Contents) ∧
        (∀ p, (∃ d, mapLookup deployed p = some d) → mapLookup changedDesired p = none →
          fsRead r.fs (filepathJoin (NewGitSyncer "repo").fsManifestsDir p) = none) :=
  ⟨by decide, sync_converges (NewGitSyncer "repo") changedRemote staleFs changedDesired
    (by decide)⟩

/-- Witness of C4: the same remote and directory, two passes. -/
theorem sync_twice_second_is_noop_witness :
    (∀ files, changedRemote.files = .ok files → ∀ f ∈ files, f.Name ≠ "") ∧
      ∃ r1 r2,
        Sync (NewGitSyncer "repo") changedRemote
            (filepathWalk staleFs (NewGitSyncer "repo").fsManifestsDir) noFaults staleFs
          = .done r1 ∧
        Sync (NewGitSyncer "repo") changedRemote
            (filepathWalk r1.fs (NewGitSyncer "repo").fsManifestsDir) noFaults r1.fs
          = .done r2 ∧
        r2.ops = [] ∧ r2.fs = r1.fs :=
  ⟨by
      intro files hf f hmem
      simp only [changedRemote, remoteOf, Except.ok.injEq] at hf
      subst hf
      simp only [List.mem_cons, List.mem_singleton, List.not_mem_nil, or_false] at hmem
      rcases hmem with h | h <;> subst h <;> decide,
    sync_twice_second_is_noop (NewGitSyncer "repo") changedRemote staleFs (by
      intro files hf f hmem
      simp only [changedRemote, remoteOf, Except.ok.injEq] at hf
      subst hf
      simp only [List.mem_cons, List.mem_singleton, List.not_mem_nil, or_false] at hmem
      rcases hmem with h | h <;> subst h <;> decide)⟩

/-- C2, the code at the failing input: with the default lists the remote file b.json
ends with the allowed suffix .json and starts with no ignore entry, yet it is not in the
map manifestsToDeploy builds, which holds a.yaml alone, and the pass over the directory
of the scenario writes nothing. -/
theorem json_manifest_not_deployed :
    HasSuffix "b.json" ".json" = true ∧
      ".json" ∈ (NewGitSyncer "repo").validSuffixList ∧
      ignoreLoop "b.json" (NewGitSyncer "repo").ignoreList = false ∧
      suffixLoop "b.json" (NewGitSyncer "repo").validSuffixList = true ∧
      manifestsToDeploy (NewGitSyncer "repo") scenarioRemote
        = .ok [("a.yaml", recordOf "a.yaml" "x" 1)] ∧
      Sync (NewGitSyncer "repo") scenarioRemote (filepathWalk scenarioFs manifestsDir)
          noFaults scenarioFs
        = .done { err := none, fs := [(manifestsDir ++ "a.yaml", "x")],
                  ops := [FsOp.remove "c.yml"] } := by
  decide

/-- C3, the code at the failing input: notes.txt ends with none of the allowed suffixes
and the remote has no file, yet the walk records it and the pass removes it. -/
theorem unmanaged_file_removed :
    (∀ suffix ∈ (NewGitSyncer "repo").validSuffixList, HasSuffix "notes.txt" suffix = false) ∧
      walkDeployed (NewGitSyncer "repo") [(manifestsDir ++ "notes.txt", "hello")] []
          (filepathWalk [(manifestsDir ++ "notes.txt", "hello")] manifestsDir)
        = .done [("notes.txt",
            { Path := "notes.txt", Size := 5, Hash := sha1Sum "hello", Contents := "" })] ∧
      Sync (NewGitSyncer "repo") (remoteOf [])
          (filepathWalk [(manifestsDir ++ "notes.txt", "hello")] manifestsDir) noFaults
          [(manifestsDir ++ "notes.txt", "hello")]
        = .done { err := none, fs := [], ops := [FsOp.remove "notes.txt"] } := by
  decide

/-- C10, the code at the failing input: on a call without file info the callback
panics, whatever the path, the error and the map are; so does Sync when the managed
directory cannot be read, and when the stat of one entry fails, in which case the
entries after it are never visited. -/
theorem walk_callback_nil_info_panics :
    (∀ s fs deployed path err,
        walkFn s fs deployed { path := path, info := none, err := err }
          = .panicked nilDereference) ∧
      Sync (NewGitSyncer "repo") scenarioRemote
          [{ path := manifestsDir, info := none, err := some "lstat: no such file or directory" }]
          noFaults []
        = .panicked nilDereference ∧
      Sync (NewGitSyncer "repo") scenarioRemote
          [ { path := manifestsDir, info := some { Size := 4096, IsDir := true }, err := none },
            { path := manifestsDir ++ "a.yaml", info := none,
              err := some "lstat: permission denied" },
            { path := manifestsDir ++ "c.yml", info := some { Size := 3, IsDir := false },
              err := none } ]
          noFaults scenarioFs
        = .panicked nilDereference := by
  refine ⟨fun s fs deployed path err => rfl, by decide, by decide⟩

/-! ## the effect of the two loops on the files under any fault pattern -/

theorem deployStep_fs_cases (s : gitSyncer) (faults : Faults) (deployed : ManifestMap)
    (st : SyncState) (e : String × manifestData) :
    (deployStep s faults deployed st e).fs = st.fs ∨
      (deployOp deployed e ≠ none ∧
        (deployStep s faults deployed st e).fs
          = fsWrite st.fs (filepathJoin s.fsManifestsDir e.1) e.2.Contents) := by
  unfold deployStep deployOp copyManifest
  split
  · split
    · exact Or.inl rfl
    · simp only
      split
      · exact Or.inl rfl
      · exact Or.inr ⟨by simp, rfl⟩
  · simp only
    split
    · exact Or.inl rfl
    · exact Or.inr ⟨by simp, rfl⟩

theorem deployStep_fs_succeeds (s : gitSyncer) (faults : Faults) (deployed : ManifestMap)
    (st : SyncState) (e : String × manifestData) (hop : deployOp deployed e ≠ none)
    (hok : ∀ i, faults i (FsOp.copy e.1 e.2.Contents) = false) :
    (deployStep s faults deployed st e).fs
      = fsWrite st.fs (filepathJoin s.fsManifestsDir e.1) e.2.Contents := by
  unfold deployOp at hop
  unfold deployStep copyManifest
  split
  · rename_i d hd
    rw [hd] at hop
    simp only at hop
    split
    · rename_i heq
      rw [if_pos heq] at hop
      exact absurd rfl hop
    · simp only [hok, Bool.false_eq_true, if_false]
  · simp only [hok, Bool.false_eq_true, if_false]

theorem removeStep_fs_cases (s : gitSyncer) (faults : Faults) (toDeploy : ManifestMap)
    (st : SyncState) (e : String × manifestData) :
    (removeStep s faults toDeploy st e).fs = st.fs ∨
      (removeOp toDeploy e ≠ none ∧
        (removeStep s faults toDeploy st e).fs
          = fsRemove st.fs (filepathJoin s.fsManifestsDir e.1)) := by
  unfold removeStep removeOp removeManifest
  split
  · exact Or.inl rfl
  · simp only
    split
    · exact Or.inl rfl
    · exact Or.inr ⟨by simp, rfl⟩

theorem removeStep_fs_succeeds (s : gitSyncer) (faults : Faults) (toDeploy : ManifestMap)
    (st : SyncState) (e : String × manifestData) (hop : removeOp toDeploy e ≠ none)
    (hok : ∀ i, faults i (FsOp.remove e.1) = false) :
    (removeStep s faults toDeploy st e).fs
      = fsRemove st.fs (filepathJoin s.fsManifestsDir e.1) := by
  unfold removeOp at hop
  unfold removeStep removeManifest
  split
  · rename_i m hm
    rw [hm] at hop
    exact absurd rfl hop
  · simp only [hok, Bool.false_eq_true, if_false]

theorem foldl_deployStep_frame (s : gitSyncer) (faults : Faults) (deployed : ManifestMap)
    (entries : ManifestMap) (st : SyncState) (path : String)
    (h : ∀ e ∈ entries, deployOp deployed e ≠ none →
      filepathJoin s.fsManifestsDir e.1 ≠ path) :
    fsRead (entries.foldl (deployStep s faults deployed) st).fs path = fsRead st.fs path := by
  induction entries generalizing st with
  | nil => rfl
  | cons e rest ih =>
    rw [List.foldl_cons, ih _ (fun e2 he2 => h e2 (List.mem_cons_of_mem _ he2))]
    rcases deployStep_fs_cases s faults deployed st e with h1 | ⟨hop, h1⟩
    · rw [h1]
    · rw [h1]
      exact fsRead_fsWrite_ne _ _ _ _ (h e (List.mem_cons_self _ _) hop)

theorem foldl_deployStep_writes (s : gitSyncer) (faults : Faults) (deployed : ManifestMap)
    (entries : ManifestMap) (st : SyncState) (e : String × manifestData)
    (hnd : (mapKeys entries).Nodup) (he : e ∈ entries) (hop : deployOp deployed e ≠ none)
    (hok : ∀ i, faults i (FsOp.copy e.1 e.2.Contents) = false) :
    fsRead (entries.foldl (deployStep s faults deployed) st).fs
        (filepathJoin s.fsManifestsDir e.1) = some e.2.Contents := by
  induction entries generalizing st with
  | nil => simp at he
  | cons e0 rest ih =>
    have hnd2 : e0.1 ∉ mapKeys rest ∧ (mapKeys rest).Nodup := by
      simpa [mapKeys] using hnd
    rw [List.foldl_cons]
    rcases List.mem_cons.mp he with h1 | h1
    · subst h1
      rw [foldl_deployStep_frame, deployStep_fs_succeeds s faults deployed st e hop hok]
      · exact fsRead_fsWrite_self _ _ _
      · intro e2 he2 _ hc
        have : e2.1 = e.1 := append_left_cancel _ _ _ hc
        exact hnd2.1 (this ▸ List.mem_map_of_mem Prod.fst he2)
    · exact ih _ hnd2.2 h1

theorem foldl_removeStep_frame (s : gitSyncer) (faults : Faults) (toDeploy : ManifestMap)
    (entries : ManifestMap) (st : SyncState) (path : String)
    (h : ∀ e ∈ entries, removeOp toDeploy e ≠ none →
      filepathJoin s.fsManifestsDir e.1 ≠ path) :
    fsRead (entries.foldl (removeStep s faults toDeploy) st).fs path = fsRead st.fs path := by
  induction entries generalizing st with
  | nil => rfl
  | cons e rest ih =>
    rw [List.foldl_cons, ih _ (fun e2 he2 => h e2 (List.mem_cons_of_mem _ he2))]
    rcases removeStep_fs_cases s faults toDeploy st e with h1 | ⟨hop, h1⟩
    · rw [h1]
    · rw [h1]
      exact fsRead_fsRemove_ne _ _ _ (h e (List.mem_cons_self _ _) hop)

theorem foldl_removeStep_stays_none (s : gitSyncer) (faults : Faults) (toDeploy : ManifestMap)
    (entries : ManifestMap) (st : SyncState) (path : String)
    (h : fsRead st.fs path = none) :
    fsRead (entries.foldl (removeStep s faults toDeploy) st).fs path = none := by
  induction entries generalizing st with
  | nil => exact h
  | cons e rest ih =>
    rw [List.foldl_cons]
    apply ih
    rcases removeStep_fs_cases s faults toDeploy st e with h1 | ⟨_, h1⟩
    · rw [h1]
      exact h
    · rw [h1]
      by_cases hp : filepathJoin s.fsManifestsDir e.1 = path
      · rw [hp]
        exact fsRead_fsRemove_self _ _
      · rw [fsRead_fsRemove_ne _ _ _ hp]
        exact h

theorem foldl_removeStep_removes (s : gitSyncer) (faults : Faults) (toDeploy : ManifestMap)
    (entries : ManifestMap) (st : SyncState) (e : String × manifestData)
    (he : e ∈ entries) (hop : removeOp toDeploy e ≠ none)
    (hok : ∀ i, faults i (FsOp.remove e.1) = false) :
    fsRead (entries.foldl (removeStep s faults toDeploy) st).fs
        (filepathJoin s.fsManifestsDir e.1) = none := by
  induction entries generalizing st with
  | nil => simp at he
  | cons e0 rest ih =>
    rw [List.foldl_cons]
    rcases List.mem_cons.mp he with h1 | h1
    · subst h1
      apply foldl_removeStep_stays_none
      rw [removeStep_fs_succeeds s faults toDeploy st e hop hok]
      exact fsRead_fsRemove_self _ _
    · exact ih _ h1

theorem deployOp_ne_none_iff (deployed : ManifestMap) (e : String × manifestData) :
    deployOp deployed e ≠ none ↔
      (mapLookup deployed e.1 = none ∨
        ∃ d, mapLookup deployed e.1 = some d ∧ d.Hash ≠ e.2.Hash) := by
  unfold deployOp
  constructor
  · intro h
    split at h
    · rename_i d hd
      split at h
      · exact absurd rfl h
      · rename_i hne
        exact Or.inr ⟨d, hd, hne⟩
    · rename_i hd
      exact Or.inl hd
  · rintro (h | ⟨d, hd, hne⟩)
    · rw [h]
      simp
    · rw [hd]
      simp [hne]

theorem deployOp_eq_some_copy (deployed : ManifestMap) (e : String × manifestData)
    (h : deployOp deployed e ≠ none) :
    deployOp deployed e = some (FsOp.copy e.1 e.2.Contents) := by
  unfold deployOp at h ⊢
  split
  · rename_i d hd
    rw [hd] at h
    simp only at h
    split
    · rename_i heq
      rw [if_pos heq] at h
      exact absurd rfl h
    · rfl
  · rfl

theorem removeOp_eq_some_remove (toDeploy : ManifestMap) (e : String × manifestData)
    (h : removeOp toDeploy e ≠ none) :
    removeOp toDeploy e = some (FsOp.remove e.1) := by
  unfold removeOp at h ⊢
  split
  · rename_i m hm
    rw [hm] at h
    exact absurd rfl h
  · rfl

/-- The files after the two loops, under any fault pattern. -/
theorem syncLoops_files (s : gitSyncer) (faults : Faults) (fs : FileSystem)
    (toDeploy deployed : ManifestMap) (hd : (mapKeys toDeploy).Nodup) :
    (∀ p m, mapLookup toDeploy p = some m →
        (mapLookup deployed p = none ∨
          ∃ d, mapLookup deployed p = some d ∧ d.Hash ≠ m.Hash) →
        (∀ i, faults i (FsOp.copy p m.Contents) = false) →
        fsRead (syncLoops s faults toDeploy deployed { fs := fs, ops := [] }).fs
          (filepathJoin s.fsManifestsDir p) = some m.Contents) ∧
      (∀ p m d, mapLookup toDeploy p = some m → mapLookup deployed p = some d →
        d.Hash = m.Hash →
        fsRead (syncLoops s faults toDeploy deployed { fs := fs, ops := [] }).fs
          (filepathJoin s.fsManifestsDir p) = fsRead fs (filepathJoin s.fsManifestsDir p)) ∧
      (∀ p, (∃ d, mapLookup deployed p = some d) → mapLookup toDeploy p = none →
        (∀ i, faults i (FsOp.remove p) = false) →
        fsRead (syncLoops s faults toDeploy deployed { fs := fs, ops := [] }).fs
          (filepathJoin s.fsManifestsDir p) = none) ∧
      (∀ path,
        (∀ p c, FsOp.copy p c ∈ passOps s faults toDeploy deployed fs →
          filepathJoin s.fsManifestsDir p ≠ path) →
        (∀ p, FsOp.remove p ∈ passOps s faults toDeploy deployed fs →
          filepathJoin s.fsManifestsDir p ≠ path) →
        fsRead (syncLoops s faults toDeploy deployed { fs := fs, ops := [] }).fs path
          = fsRead fs path) := by
  have hkeep : ∀ p m, mapLookup toDeploy p = some m →
      fsRead (syncLoops s faults toDeploy deployed { fs := fs, ops := [] }).fs
          (filepathJoin s.fsManifestsDir p)
        = fsRead (toDeploy.foldl (deployStep s faults deployed) { fs := fs, ops := [] }).fs
          (filepathJoin s.fsManifestsDir p) := by
    intro p m hm
    unfold syncLoops
    apply foldl_removeStep_frame
    intro e2 _ hop hc
    have hk : e2.1 = p := append_left_cancel _ _ _ hc
    have hl := removeOp_ne_none_lookup toDeploy e2 hop
    rw [hk, hm] at hl
    cases hl
  refine ⟨?_, ?_, ?_, ?_⟩
  · intro p m hm hcond hok
    rw [hkeep p m hm]
    exact foldl_deployStep_writes s faults deployed toDeploy _ (p, m) hd
      (mem_of_mapLookup toDeploy p m hm) ((deployOp_ne_none_iff deployed (p, m)).mpr hcond) hok
  · intro p m d hm hdp heq
    rw [hkeep p m hm]
    apply foldl_deployStep_frame
    intro e2 he2 hop2 hc
    have hk : e2.1 = p := append_left_cancel _ _ _ hc
    have h2 : mapLookup toDeploy e2.1 = some e2.2 := mapLookup_of_mem toDeploy _ _ hd he2
    rw [hk, hm] at h2
    rcases (deployOp_ne_none_iff deployed e2).mp hop2 with h3 | ⟨d2, hd2, hne⟩
    · rw [hk, hdp] at h3
      cases h3
    · rw [hk, hdp] at hd2
      cases hd2
      rw [← Option.some.inj h2] at hne
      exact hne heq
  · rintro p ⟨d, hdp⟩ hnone hok
    unfold syncLoops
    exact foldl_removeStep_removes s faults toDeploy deployed _ (p, d)
      (mem_of_mapLookup deployed p d hdp)
      (deployOp_ne_none_of_lookup_none toDeploy (p, d) hnone) hok
  · intro path hcopy hrem
    unfold syncLoops
    rw [foldl_removeStep_frame, foldl_deployStep_frame]
    · intro e he hop
      apply hcopy e.1 e.2.Contents
      rw [passOps_eq]
      exact List.mem_append_left _
        (List.mem_filterMap.mpr ⟨e, he, deployOp_eq_some_copy deployed e hop⟩)
    · intro e he hop
      apply hrem e.1
      rw [passOps_eq]
      exact List.mem_append_right _
        (List.mem_filterMap.mpr ⟨e, he, removeOp_eq_some_remove toDeploy e hop⟩)

/-- C1: the two loops of Sync decide by key presence and hash equality alone, under
any fault pattern. A path of the desired map that is absent from the deployed map, or
there with another hash, gets a write attempt, with the desired contents, and when
that attempt does not fail the file at the path holds those contents afterwards. A path
in both maps with equal hashes gets no attempt and its file is left as it was, whatever
the two sizes are. A path of the deployed map absent from the desired map gets a
remove attempt, and when that attempt does not fail the file is gone afterwards. No
other operation is attempted, no path is both written and removed, and every file that
is not the target of an attempted operation is left as it was. -/
theorem sync_loops_classify (s : gitSyncer) (faults : Faults) (fs : FileSystem)
    (toDeploy deployed : ManifestMap) (hd : (mapKeys toDeploy).Nodup) :
    ((∀ p c, FsOp.copy p c ∈ passOps s faults toDeploy deployed fs ↔
        ∃ m, mapLookup toDeploy p = some m ∧ c = m.Contents ∧
          (mapLookup deployed p = none ∨
            ∃ d, mapLookup deployed p = some d ∧ d.Hash ≠ m.Hash)) ∧
      (∀ p, FsOp.remove p ∈ passOps s faults toDeploy deployed fs ↔
        (∃ d, mapLookup deployed p = some d) ∧ mapLookup toDeploy p = none) ∧
      (∀ p m d, mapLookup toDeploy p = some m → mapLookup deployed p = some d →
        d.Hash = m.Hash →
          (∀ c, FsOp.copy p c ∉ passOps s faults toDeploy deployed fs) ∧
            FsOp.remove p ∉ passOps s faults toDeploy deployed fs) ∧
      (∀ p c, FsOp.copy p c ∈ passOps s faults toDeploy deployed fs →
        FsOp.remove p ∉ passOps s faults toDeploy deployed fs)) ∧
    ((∀ p m, mapLookup toDeploy p = some m →
        (mapLookup deployed p = none ∨
          ∃ d, mapLookup deployed p = some d ∧ d.Hash ≠ m.Hash) →
        (∀ i, faults i (FsOp.copy p m.Contents) = false) →
        fsRead (syncLoops s faults toDeploy deployed { fs := fs, ops := [] }).fs
          (filepathJoin s.fsManifestsDir p) = some m.Contents) ∧
      (∀ p m d, mapLookup toDeploy p = some m → mapLookup deployed p = some d →
        d.Hash = m.Hash →
        fsRead (syncLoops s faults toDeploy deployed { fs := fs, ops := [] }).fs
          (filepathJoin s.fsManifestsDir p) = fsRead fs (filepathJoin s.fsManifestsDir p)) ∧
      (∀ p, (∃ d, mapLookup deployed p = some d) → mapLookup toDeploy p = none →
        (∀ i, faults i (FsOp.remove p) = false) →
        fsRead (syncLoops s faults toDeploy deployed { fs := fs, ops := [] }).fs
          (filepathJoin s.fsManifestsDir p) = none) ∧
      (∀ path,
        (∀ p c, FsOp.copy p c ∈ passOps s faults toDeploy deployed fs →
          filepathJoin s.fsManifestsDir p ≠ path) →
        (∀ p, FsOp.remove p ∈ passOps s faults toDeploy deployed fs →
          filepathJoin s.fsManifestsDir p ≠ path) →
        fsRead (syncLoops s faults toDeploy deployed { fs := fs, ops := [] }).fs path
          = fsRead fs path)) :=
  ⟨passOps_classify s faults fs toDeploy deployed hd,
    syncLoops_files s faults fs toDeploy deployed hd⟩

/-- Witness of C1: an unchanged path whose sizes differ, an update whose sizes agree,
and a deployed path the desired map lacks; b.yaml is rewritten, c.yaml is removed and
a.yaml is left alone. -/
theorem sync_loops_classify_witness :
    (mapKeys sampleDesired).Nodup ∧
      (∀ p m, mapLookup sampleDesired p = some m →
        (mapLookup sampleDeployed p = none ∨
          ∃ d, mapLookup sampleDeployed p = some d ∧ d.Hash ≠ m.Hash) →
        (∀ i, noFaults i (FsOp.copy p m.Contents) = false) →
        fsRead (syncLoops (NewGitSyncer "repo") noFaults sampleDesired sampleDeployed
            { fs := sampleFs, ops := [] }).fs
          (filepathJoin (NewGitSyncer "repo").fsManifestsDir p) = some m.Contents) ∧
      syncLoops (NewGitSyncer "repo") noFaults sampleDesired sampleDeployed
          { fs := sampleFs, ops := [] }
        = { fs := [(manifestsDir ++ "b.yaml", "y"), (manifestsDir ++ "a.yaml", "x")],
            ops := [FsOp.copy "b.yaml" "y", FsOp.remove "c.yaml"] } :=
  ⟨by decide,
    (sync_loops_classify (NewGitSyncer "repo") noFaults sampleFs sampleDesired sampleDeployed
      (by decide)).2.1,
    by decide⟩

end K3sUpdater
